import Mathlib

/-!
Verification of the core accounting and execution components of the
`pcm_backtest` event-driven backtesting engine.

The Python source is shallowly embedded:
* money amounts (Python floats) are modelled as rationals `ℚ`;
* share quantities (Python ints) are `Int`, or `Nat` where the source
  maintains non-negativity (FIFO lot sizes, fill quantities);
* Python `dict`s keyed by object ids are association lists with the
  dict's replace-in-place / remove semantics;
* the two unbounded `while` loops of `Trade.on_fill` are embedded with an
  explicit fuel argument; fuel exhaustion (`FillErr.diverge`) corresponds
  to a non-terminating Python loop and is proved unreachable on the
  well-formed states the claims quantify over;
* raised `OverFilling` exceptions are the `FillErr.overFilling` error value.
-/

namespace Pcm

/-- Association-list lookup, mirroring Python `d[k]` (first binding wins). -/
def olookup (oid : Nat) : List (Nat × α) → Option α
  | [] => none
  | (k, v) :: rest => if k = oid then some v else olookup oid rest

/-- Association-list update, mirroring Python `d[k] = v`: replaces the
existing binding in place, appends a new binding otherwise. -/
def oset (oid : Nat) (v : α) : List (Nat × α) → List (Nat × α)
  | [] => [(oid, v)]
  | (k, x) :: rest => if k = oid then (k, v) :: rest else (k, x) :: oset oid v rest

/-- Association-list removal, mirroring Python `d.pop(k)`. -/
def oremove (oid : Nat) (l : List (Nat × α)) : List (Nat × α) :=
  l.filter (fun p => p.1 ≠ oid)

/-- Outcome of `Trade.on_fill`: `overFilling` models the raised
`OverFilling` exception, `diverge` models a non-terminating loop
(out of fuel; unreachable from well-formed states). -/
inductive FillErr where
  | overFilling
  | diverge
deriving DecidableEq

/-- A pending-order record, `Trade.orders[oid] = {'Q': …, 'D': …}`.
`Q` is `Int` because the source's closing loop can drive it negative. -/
structure OrderRec where
  Q : Int
  D : Int
deriving DecidableEq

/-- A filled lot on `Trade.share_queue`: `{'Q': …, 'C': …}`.  Lot sizes are
the source's fill quantities and their FIFO remainders, always ≥ 0. -/
structure Lot where
  Q : Nat
  C : ℚ
deriving DecidableEq

/-- `Trade` state (src/trade.py).  The last observed tick is kept as its
close price, the only component `Trade` reads. -/
structure Trade where
  t : Nat
  position : Int
  open_quantity : Int
  quantity : Int
  realized : ℚ
  cost : ℚ
  max_cost : ℚ
  max_profit : ℚ
  orders : List (Nat × OrderRec)
  share_queue : List Lot
  tickClose : ℚ
deriving DecidableEq

namespace Trade

/-- `Trade.cost_basis` (`ZeroDivisionError` branch returns 0). -/
def cost_basis (tr : Trade) : ℚ :=
  if tr.quantity = 0 then 0 else tr.cost / tr.quantity

/-- `Trade.unrealized`. -/
def unrealized (tr : Trade) : ℚ :=
  tr.position * tr.quantity * (tr.tickClose - tr.cost_basis)

/-- `Trade.profit`. -/
def profit (tr : Trade) : ℚ :=
  tr.unrealized + tr.realized

/-- `Trade.total_quantity`. -/
def total_quantity (tr : Trade) : Int :=
  tr.quantity + tr.open_quantity

/-- `Trade.is_closing`. -/
def is_closing (tr : Trade) : Bool :=
  tr.total_quantity = 0 && !tr.orders.isEmpty

/-- `Trade.is_closed`. -/
def is_closed (tr : Trade) : Bool :=
  tr.quantity = 0 && tr.open_quantity = 0 && tr.orders.isEmpty

/-- `Trade.mv`. -/
def mv (tr : Trade) : ℚ :=
  tr.position * tr.tickClose * tr.quantity

/-- `Trade.on_market`: advance the bar counter, store the tick, refresh
the profit high-water mark. -/
def on_market (tr : Trade) (tickClose : ℚ) : Trade :=
  { tr with
    tickClose := tickClose
    t := tr.t + 1
    max_profit := max tr.profit tr.max_profit }

/-- `Trade.on_order`. -/
def on_order (tr : Trade) (oid : Nat) (quantity : Nat) (direction : Int) : Trade :=
  { tr with
    open_quantity := tr.open_quantity + tr.position * direction * quantity
    orders := oset oid ⟨quantity, direction⟩ tr.orders }

/-- `Trade.__init__(oid, quantity, direction, tick)`: fresh state followed
by the initial `on_order`.  The generated `ObjectId` is not modelled. -/
def construct (oid : Nat) (quantity : Nat) (direction : Int) (tickClose : ℚ) : Trade :=
  Trade.on_order
    { t := 1, position := direction, open_quantity := 0, quantity := 0,
      realized := 0, cost := 0, max_cost := 0, max_profit := 0,
      orders := [], share_queue := [], tickClose := tickClose }
    oid quantity direction

/-- Result of the opening-fill loop: updated orders map, open quantity,
quantity, and the Python variable `Q` after the last iteration. -/
structure OpenOut where
  orders : List (Nat × OrderRec)
  oq : Int
  qty : Int
  lastQ : Int
deriving DecidableEq

/-- The `while need_fill > 0` loop of the opening branch of
`Trade.on_fill`, with explicit fuel. -/
def openLoop (oid : Nat) : Nat → Int → List (Nat × OrderRec) → Int → Int → Int →
    Except FillErr OpenOut
  | fuel, need, orders, oq, qty, lastQ =>
    if need ≤ 0 then .ok ⟨orders, oq, qty, lastQ⟩
    else
      match fuel with
      | 0 => .error .diverge
      | fuel + 1 =>
        match olookup oid orders with
        | none => .error .overFilling
        | some ord =>
          let Q := min ord.Q need
          let orders' := if ord.Q - Q ≠ 0
            then oset oid ⟨ord.Q - Q, ord.D⟩ orders
            else oremove oid orders
          openLoop oid fuel (need - Q) orders' (oq - Q) (qty + Q) Q

/-- Result of the closing-fill loop. -/
structure CloseOut where
  orders : List (Nat × OrderRec)
  queue : List Lot
  cost : ℚ
  realized : ℚ
  oq : Int
  qty : Int
deriving DecidableEq

/-- The `while need_fill > 0` loop of the closing branch of
`Trade.on_fill`, with explicit fuel. -/
def closeLoop (oid : Nat) (pos : Int) (cps : ℚ) :
    Nat → Int → List (Nat × OrderRec) → List Lot → ℚ → ℚ → Int → Int →
    Except FillErr CloseOut
  | fuel, need, orders, queue, cost, realized, oq, qty =>
    if need ≤ 0 then .ok ⟨orders, queue, cost, realized, oq, qty⟩
    else
      match fuel with
      | 0 => .error .diverge
      | fuel + 1 =>
        match olookup oid orders with
        | none => .error .overFilling
        | some ord =>
          match queue with
          | [] => .error .overFilling
          | L :: rest =>
            let Q : Int := min (L.Q : Int) need
            let queue' := if (L.Q : Int) - Q ≠ 0
              then (⟨((L.Q : Int) - Q).toNat, L.C⟩ : Lot) :: rest
              else rest
            let orders' := if ord.Q - Q ≠ 0
              then oset oid ⟨ord.Q - Q, ord.D⟩ orders
              else oremove oid orders
            closeLoop oid pos cps fuel (need - Q) orders' queue'
              (cost - Q * L.C) (realized + pos * Q * (cps - L.C))
              (oq + Q) (qty - Q)

/-- `Trade.on_fill(oid, quantity, direction, cost, commission)`
(src/trade.py lines 131–187).  Fuel bounds are sufficient for every
execution whose Python counterpart terminates.  `quantity = 0` (which
raises `ZeroDivisionError`/`NameError` in Python, never issued by the
engine since fills carry positive quantities) is outside the model. -/
def on_fill (tr : Trade) (oid : Nat) (quantity : Nat) (direction : Int)
    (cost commission : ℚ) : Except FillErr Trade :=
  if direction = tr.position then
    let cps := cost + tr.position * commission / (quantity : ℚ)
    match openLoop oid quantity (quantity : Int) tr.orders tr.open_quantity tr.quantity 0 with
    | .error e => .error e
    | .ok out =>
      let cost' := tr.cost + cps * out.lastQ
      .ok { tr with
            orders := out.orders
            open_quantity := out.oq
            quantity := out.qty
            cost := cost'
            max_cost := max cost' tr.max_cost
            share_queue := tr.share_queue ++ [⟨quantity, cps⟩] }
  else
    let cps := cost - tr.position * commission / (quantity : ℚ)
    match closeLoop oid tr.position cps (quantity + tr.share_queue.length)
        (quantity : Int) tr.orders tr.share_queue tr.cost tr.realized
        tr.open_quantity tr.quantity with
    | .error e => .error e
    | .ok o =>
      .ok { tr with
            orders := o.orders
            share_queue := o.queue
            cost := o.cost
            realized := o.realized
            open_quantity := o.oq
            quantity := o.qty }

end Trade

/-- Whether an `on_fill` call returned normally. -/
def fillOk (e : Except FillErr Trade) : Bool :=
  match e with
  | .ok _ => true
  | .error _ => false

/-- Total shares held on a lot queue. -/
def lotsTotal (q : List Lot) : Nat :=
  (q.map Lot.Q).sum

/-- The FIFO consumption the specification describes for a closing fill of
`need` shares: the list of `(Qc, lot cost)` pairs consumed from the head of
the queue, with `Qc = min(lot.Q, remaining)`, together with the remaining
queue. -/
def fifoConsume (need : Nat) : List Lot → List (Nat × ℚ) × List Lot
  | [] => ([], [])
  | L :: rest =>
    if need = 0 then ([], L :: rest)
    else
      let Qc := min L.Q need
      if L.Q - Qc ≠ 0 then
        ([(Qc, L.C)], (⟨L.Q - Qc, L.C⟩ : Lot) :: rest)
      else
        let r := fifoConsume (need - Qc) rest
        ((Qc, L.C) :: r.1, r.2)

/-- `Σ Qc · lot.C` over a consumption list. -/
def consumedCost (l : List (Nat × ℚ)) : ℚ :=
  (l.map (fun p => (p.1 : ℚ) * p.2)).sum

/-- `Σ position · Qc · (P − lot.C)` over a consumption list. -/
def consumedRealized (pos : Int) (P : ℚ) (l : List (Nat × ℚ)) : ℚ :=
  (l.map (fun p => (pos : ℚ) * p.1 * (P - p.2))).sum

/-- The `LONG`/`SHORT`/`EXIT` signal kinds of src/conf.py. -/
inductive SigType where
  | long
  | short
  | exit
deriving DecidableEq

/-- `LONG.sign = 1`, `SHORT.sign = -1`, `EXIT.sign = 0`. -/
def SigType.sign : SigType → Int
  | .long => 1
  | .short => -1
  | .exit => 0

/-- `SignalEventPct` (src/event/signal.py); the symbol and generated id
are carried by context. -/
structure SignalPct where
  signal_type : SigType
  strength : ℚ
deriving DecidableEq

/-- `SignalEventPct.target_qty(price, equity)`. -/
def SignalPct.target_qty (s : SignalPct) (price equity : ℚ) : Int :=
  s.signal_type.sign * ⌊s.strength / price * equity⌋

/-- The three signal-urgency levels, in the priority order of
`Position.signal_lvl`. -/
inductive Level where
  | hard_stop
  | normal
  | rebalance
deriving DecidableEq

/-- The per-position signal buffer `Position.signals`, one slot per
urgency level (a key is present iff the slot is `some`). -/
structure Signals where
  hard_stop : Option SignalPct
  normal : Option SignalPct
  rebalance : Option SignalPct
deriving DecidableEq

/-- The empty signal buffer. -/
def Signals.empty : Signals := ⟨none, none, none⟩

/-- `MKT` / `LMT` order types. -/
inductive OrderType where
  | mkt
  | lmt
deriving DecidableEq

/-- `OrderEvent` (src/event/order.py): symbols are identified with `Nat`
codes and the generated `ObjectId` with a `Nat` id. -/
structure OrderEvent where
  id : Nat
  symbol : Nat
  order_type : OrderType
  quantity : Nat
  direction : Int
deriving DecidableEq

/-- `Position` (src/pos.py).  The last tick is kept as its close price;
trade ids are `Nat`. -/
structure Position where
  symbol : Nat
  pct_portfolio : ℚ
  rebalance : Nat
  hard_stop : ℚ
  tickClose : ℚ
  open_trade : Option Nat
  trades : List (Nat × Trade)
  trade_mapper : List (Nat × Nat)
  signals : Signals
deriving DecidableEq

namespace Position

/-- The `Position.open_trade` property: `some` the open trade, `none` when
`NoOpenTrade` would be raised (no `_open_trade` id, or a stale id no longer
in `trades`). -/
def open_trade_get (p : Position) : Option Trade :=
  match p.open_trade with
  | none => none
  | some tid => olookup tid p.trades

/-- `Position.quantity`: `Σ trade.position · trade.quantity`. -/
def quantity (p : Position) : Int :=
  (p.trades.map (fun kv => kv.2.position * kv.2.quantity)).sum

/-- `Position.position`: LONG/SHORT by the sign of `quantity`, EXIT at 0. -/
def position (p : Position) : SigType :=
  let Q := p.quantity
  if Q = 0 then .exit else if 0 < Q then .long else .short

/-- `Position.has_position`: whether any trade exists. -/
def has_position (p : Position) : Bool :=
  !p.trades.isEmpty

/-- `Position.t`: the open trade's bar counter, 0 on `NoOpenTrade`. -/
def t (p : Position) : Nat :=
  match p.open_trade_get with
  | some tr => tr.t
  | none => 0

/-- `Position.total_quantity`: the open trade's signed exposure, 0 on
`NoOpenTrade`. -/
def total_quantity (p : Position) : Int :=
  match p.open_trade_get with
  | some tr => tr.position * tr.total_quantity
  | none => 0

/-- `Position.cost`. -/
def cost (p : Position) : ℚ :=
  (p.trades.map (fun kv => kv.2.cost)).sum

/-- `Position.mv`. -/
def mv (p : Position) : ℚ :=
  (p.trades.map (fun kv => kv.2.mv)).sum

/-- `Position.profit`. -/
def profit (p : Position) : ℚ :=
  (p.trades.map (fun kv => kv.2.profit)).sum

/-- `Position.max_profit`. -/
def max_profit (p : Position) : ℚ :=
  (p.trades.map (fun kv => kv.2.max_profit)).sum

/-- `Position.drawdown` (`ZeroDivisionError` branch returns 0). -/
def drawdown (p : Position) : ℚ :=
  if p.profit = 0 then 0 else p.max_profit / p.profit - 1

/-- Write a `SignalPct` into one buffer slot. -/
def put_signal (p : Position) (lvl : Level) (s : SignalPct) : Position :=
  match lvl with
  | .hard_stop => { p with signals := { p.signals with hard_stop := some s } }
  | .normal => { p with signals := { p.signals with normal := some s } }
  | .rebalance => { p with signals := { p.signals with rebalance := some s } }

/-- `Position._generate_signal(signal_type, lvl, strength?)`: strength is
0 for EXIT, otherwise the given strength or `pct_portfolio`. -/
def gen_signal (p : Position) (signal_type : SigType) (lvl : Level)
    (strength : Option ℚ) : Position :=
  let s := if signal_type = .exit then 0 else strength.getD p.pct_portfolio
  p.put_signal lvl ⟨signal_type, s⟩

/-- `Position._reset_signals`. -/
def reset_signals (p : Position) : Position :=
  { p with signals := Signals.empty }

/-- `Position.check_hard_stop`. -/
def check_hard_stop (p : Position) : Position :=
  if p.hard_stop = 0 then p
  else if p.hard_stop ≤ p.drawdown then p.gen_signal .exit .hard_stop none
  else p

/-- `Position.check_rebalance`. -/
def check_rebalance (p : Position) : Position :=
  if p.rebalance = 0 then p
  else if p.t % p.rebalance = 0 then p.gen_signal p.position .rebalance none
  else p

/-- `Position._calculate_signals`. -/
def calculate_signals (p : Position) : Position :=
  if p.has_position then p.check_hard_stop.check_rebalance else p

/-- The signal-selection loop at the head of `Position.generate_orders`:
the first occupied slot in the order hard_stop, normal, rebalance. -/
def selected (p : Position) : Option (SignalPct × Level) :=
  match p.signals.hard_stop with
  | some s => some (s, .hard_stop)
  | none =>
    match p.signals.normal with
    | some s => some (s, .normal)
    | none =>
      match p.signals.rebalance with
      | some s => some (s, .rebalance)
      | none => none

/-- `Position.generate_orders(equity)`, as the list a full iteration of the
generator yields together with the position afterwards (signals cleared).
Fresh order ids are drawn from `fresh`, `fresh+1`, … in yield order. -/
def generate_orders (p : Position) (equity : ℚ) (fresh : Nat) :
    List (OrderEvent × Level) × Position :=
  match p.selected with
  | none => ([], p.reset_signals)
  | some (sig, lvl) =>
    let target := sig.target_qty p.tickClose equity
    let Q := p.total_quantity
    let trade_qty : List Int :=
      if Q = 0 then [target]
      else if target.sign = Q.sign then [target - Q]
      else [-Q, target]
    let orders := (trade_qty.filter (fun q => q ≠ 0)).enum.map (fun iq =>
      (({ id := fresh + iq.1, symbol := p.symbol, order_type := .mkt,
          quantity := iq.2.natAbs,
          direction := if (0 : Int) < iq.2 then 1 else -1 } : OrderEvent), lvl))
    (orders, p.reset_signals)

/-- `Position.confirm_order(order)`; `fresh` is the id of the `Trade`
created when no trade is open. -/
def confirm_order (p : Position) (o : OrderEvent) (fresh : Nat) : Position :=
  match p.open_trade with
  | some tid =>
    match olookup tid p.trades with
    | some tr =>
      let tr' := tr.on_order o.id o.quantity o.direction
      let p' := { p with trades := oset tid tr' p.trades }
      let p'' := if tr'.is_closing then { p' with open_trade := none } else p'
      { p'' with trade_mapper := oset o.id tid p''.trade_mapper }
    | none =>
      let tr := Trade.construct o.id o.quantity o.direction p.tickClose
      { p with
        open_trade := some fresh
        trades := oset fresh tr p.trades
        trade_mapper := oset o.id fresh p.trade_mapper }
  | none =>
    let tr := Trade.construct o.id o.quantity o.direction p.tickClose
    { p with
      open_trade := some fresh
      trades := oset fresh tr p.trades
      trade_mapper := oset o.id fresh p.trade_mapper }

end Position

/-- An OHLCV bar (`Tick` namedtuple); prices as rationals, volume as an
integer.  The timestamp is not consumed by the executor. -/
structure Tick where
  open_ : ℚ
  close : ℚ
  high : ℚ
  low : ℚ
  volume : Int
deriving DecidableEq

/-- `SLIPPAGE_LIMIT = 0.025`. -/
def slippage_limit : ℚ := 25 / 1000

/-- `MIN_IMPACT = 0.003`. -/
def min_impact : ℚ := 3 / 1000

/-- `PRICE_IMPACT_COEF = 0.1`. -/
def price_impact_coef : ℚ := 1 / 10

/-- Python `round(x, 3)`, on rationals.  (Python floats round half to
even; the difference only shows at exact half-of-a-thousandth ties,
which none of the verified properties depend on.) -/
def round3 (x : ℚ) : ℚ :=
  (round (x * 1000) : ℚ) / 1000

/-- `slippage(price, bar_volume, open_quantity, direction, filled_volume)`
(src/executor.py lines 215–258), with the default constants. -/
def slippage (price : ℚ) (bar_volume open_quantity direction filled_volume : Int) :
    Int × ℚ :=
  if bar_volume ≤ 0 then (0, 0)
  else
    let filled : Int :=
      ⌊min (open_quantity : ℚ) (max 0 (slippage_limit * bar_volume - filled_volume))⌋
    let share : ℚ := min ((filled : ℚ) / (bar_volume : ℚ)) slippage_limit
    let impact : ℚ := direction * max min_impact (share ^ 2 * price_impact_coef * price)
    (filled, round3 (impact + price))

/-- `FillEventIB.calculate_commission`:
`min(0.005·quantity, 0.005·fill_cost·quantity)`. -/
def commissionIB (quantity : Int) (fill_cost : ℚ) : ℚ :=
  min ((5 : ℚ) / 1000 * quantity) ((5 : ℚ) / 1000 * fill_cost * quantity)

/-- The commission stored by `FillEvent.__init__`: an explicit truthy
(non-zero) commission is kept, a falsy one (`None`, `0`, `0.0`) is replaced
by the broker-computed value. -/
def storedCommission (quantity : Int) (fill_cost : ℚ) (commission : Option ℚ) : ℚ :=
  match commission with
  | some c => if c = 0 then commissionIB quantity fill_cost else c
  | none => commissionIB quantity fill_cost

/-- `FillEvent` (src/event/fill.py); the generated event id is not
modelled. -/
structure FillEvent where
  order_id : Nat
  symbol : Nat
  quantity : Int
  fill_type : Int
  fill_cost : ℚ
  commission : ℚ
deriving DecidableEq

/-- Order status within a `SimuBook`. -/
inductive FillStatus where
  | submitted
  | filling
  | filled
deriving DecidableEq

/-- One `SimuBook.fillings` record. -/
structure Filling where
  order : OrderEvent
  fills : List FillEvent
  open_quantity : Int
  status : FillStatus
deriving DecidableEq

/-- `SimuBook` (src/executor.py): FIFO id queue, insertion-ordered
fillings map, last seen ticks, per-symbol filled counter. -/
structure SimuBook where
  orders : List Nat
  fillings : List (Nat × Filling)
  ticks : Nat → Tick
  filled_counter : List (Nat × Int)

/-- `defaultdict(int)` read of the filled counter. -/
def clookup (s : Nat) (c : List (Nat × Int)) : Int :=
  (olookup s c).getD 0

/-- `self.filled_counter[symbol] += filled`. -/
def cadd (s : Nat) (v : Int) (c : List (Nat × Int)) : List (Nat × Int) :=
  oset s (clookup s c + v) c

namespace SimuBook

/-- `SimuBook.on_order(order)`: guard the fillings insert on a fresh id,
always append the id to the FIFO queue. -/
def on_order (b : SimuBook) (o : OrderEvent) : SimuBook :=
  let fillings' :=
    match olookup o.id b.fillings with
    | none => b.fillings ++ [(o.id, ⟨o, [], (o.quantity : Int), .submitted⟩)]
    | some _ => b.fillings
  { b with fillings := fillings', orders := b.orders ++ [o.id] }

/-- `SimuBook.place_order(order)` (src/executor.py lines 164–207).  The
`none` lookup branch is a `KeyError` crash in the source; it is
unreachable because the id queue only ever holds fillings keys. -/
def place_order (b : SimuBook) (o : OrderEvent) : SimuBook × Option FillEvent :=
  let tick := b.ticks o.symbol
  match olookup o.id b.fillings with
  | none => (b, none)
  | some fl =>
    let open_q := fl.open_quantity
    let fp := slippage ((tick.high + tick.low + tick.close) / 3) tick.volume
      open_q o.direction (max 0 (clookup o.symbol b.filled_counter))
    let filled := fp.1
    let b1 := { b with filled_counter := cadd o.symbol filled b.filled_counter }
    if filled ≠ 0 then
      let open_q' := open_q - filled
      let fe : FillEvent :=
        { order_id := o.id, symbol := o.symbol, quantity := filled,
          fill_type := o.direction, fill_cost := fp.2,
          commission := storedCommission filled fp.2 none }
      let fl' := { fl with
        open_quantity := open_q'
        status := if open_q' = 0 then .filled else fl.status
        fills := fl.fills ++ [fe] }
      ({ b1 with fillings := oset o.id fl' b1.fillings }, some fe)
    else (b1, none)

/-- The drain loop of `SimuBook.on_market`: pop each queued id, mark it
FILLING, place the order; collect the published fills.  (A popped id
missing from fillings is a `KeyError` crash in the source, unreachable.) -/
def fill_orders : SimuBook → List Nat → SimuBook × List FillEvent
  | b, [] => (b, [])
  | b, oid :: rest =>
    match olookup oid b.fillings with
    | none => fill_orders b rest
    | some fl =>
      let b1 := { b with fillings := oset oid { fl with status := .filling } b.fillings }
      let pr := b1.place_order fl.order
      let r := fill_orders pr.1 rest
      (r.1, pr.2.toList ++ r.2)

/-- `SimuBook.on_market(ticks)`: store the ticks, drain the queue, requeue
unfilled orders in fillings order, drop filled ones, clear the counter. -/
def on_market (b : SimuBook) (ticks : Nat → Tick) : SimuBook × List FillEvent :=
  let b0 : SimuBook := { b with ticks := ticks, orders := [] }
  let dr := fill_orders b0 b.orders
  let b1 := dr.1
  let b2 : SimuBook :=
    { b1 with
      orders := b1.orders ++ (b1.fillings.filter (fun kv => kv.2.status ≠ .filled)).map (·.1)
      fillings := b1.fillings.filter (fun kv => kv.2.status ≠ .filled)
      filled_counter := [] }
  (b2, dr.2)

end SimuBook

/-- A fresh `SimuBook` (`ticks` starts unset in the source; an arbitrary
default tick stands in until the first bar arrives). -/
def emptyBook : SimuBook :=
  { orders := [], fillings := [], ticks := fun _ => ⟨0, 0, 0, 0, 0⟩,
    filled_counter := [] }

/-- One bar of the simulation loop, in the phase order `DataBook.on_next`
enforces: the executor receives and processes the bar first, then the
strategy sees its aggregated form and submits `newOrders` to the book. -/
def runBar (b : SimuBook) (ticks : Nat → Tick) (newOrders : List OrderEvent) :
    SimuBook × List FillEvent :=
  let mr := b.on_market ticks
  (newOrders.foldl SimuBook.on_order mr.1, mr.2)

/-- The per-bar event loop over a list of bars, each bar carrying its
ticks and the orders the strategy submits while processing it; returns
the fills the executor publishes at each bar. -/
def runBars : SimuBook → List ((Nat → Tick) × List OrderEvent) → List (List FillEvent)
  | _, [] => []
  | b, (t, os) :: rest =>
    let r := runBar b t os
    r.2 :: runBars r.1 rest

/-- The orders the strategy submits at bar `j`. -/
def submittedAt (bars : List ((Nat → Tick) × List OrderEvent)) (j : Nat) :
    List OrderEvent :=
  ((bars.get? j).map (·.2)).getD []

/-- Total quantity of the fills for symbol `s` in a published batch. -/
def fillsFor (s : Nat) (fs : List FillEvent) : Int :=
  ((fs.filter (fun f => f.symbol = s)).map (·.quantity)).sum

/-- A `MarketEvent` viewed through its New-York local timestamp (the
result of `local_ts`' timezone conversion): pandas weekday
(0 = Monday … 6 = Sunday) and local seconds since midnight. -/
structure MarketEventLocal where
  dayofweek : Nat
  timeSec : Nat
deriving DecidableEq

/-- `RTH_CLOSE = 16:00`, as seconds since local midnight. -/
def rth_close : Nat := 16 * 3600

/-- `MarketEvent.end_of_day`: local time ≥ 16:00. -/
def MarketEventLocal.end_of_day (e : MarketEventLocal) : Bool :=
  decide (rth_close ≤ e.timeSec)

/-- `MarketEvent.end_of_week` (src/event/market.py line 73):
`end_of_day and local_ts.dayofweek >= FRIDAY` with `FRIDAY = 4`. -/
def MarketEventLocal.end_of_week (e : MarketEventLocal) : Bool :=
  e.end_of_day && decide (4 ≤ e.dayofweek)

/-- `BaseStrategy` state (src/strategy.py), restricted to what
`on_order` touches; `published` records `basic_publish('order', …)` and
the two call lists record the level-specific callback invocations. -/
structure Strategy where
  pos : List (Nat × Position)
  ticks : Nat → ℚ
  cash : ℚ
  commission : ℚ
  published : List OrderEvent
  hard_stop_calls : List Nat
  rebalance_calls : List Nat

namespace Strategy

/-- `BaseStrategy.on_order(order, lvl, bp)` (src/strategy.py lines
277–312): returns the updated strategy and the used buying power.
`fresh` is the trade id used if `confirm_order` opens a new trade.  (A
symbol absent from `pos` is a `KeyError` crash in the source; the
strategy only emits orders for its own symbols.) -/
def on_order (s : Strategy) (o : OrderEvent) (lvl : Level) (bp : ℚ) (fresh : Nat) :
    Strategy × ℚ :=
  let need_bp := (o.quantity : ℚ) * s.ticks o.symbol
  if need_bp ≤ bp then
    let s1 :=
      match lvl with
      | .hard_stop => { s with hard_stop_calls := s.hard_stop_calls ++ [o.symbol] }
      | .rebalance => { s with rebalance_calls := s.rebalance_calls ++ [o.symbol] }
      | .normal => s
    let s2 :=
      match olookup o.symbol s1.pos with
      | some p => { s1 with pos := oset o.symbol (p.confirm_order o fresh) s1.pos }
      | none => s1
    ({ s2 with published := s2.published ++ [o] }, need_bp)
  else (s, 0)

end Strategy

/-! ### Association-list lemmas -/

theorem olookup_oset_self : ∀ (l : List (Nat × α)) (k : Nat) (v : α),
    olookup k (oset k v l) = some v
  | [], k, v => by simp [oset, olookup]
  | (a, b) :: rest, k, v => by
    by_cases h : a = k
    · simp [oset, olookup, h]
    · simp [oset, olookup, h, olookup_oset_self rest k v]

theorem olookup_oset_ne : ∀ (l : List (Nat × α)) (k k' : Nat) (v : α), k' ≠ k →
    olookup k' (oset k v l) = olookup k' l
  | [], k, k', v, h => by
    have hk : k ≠ k' := fun hh => h hh.symm
    simp [oset, olookup, hk]
  | (a, b) :: rest, k, k', v, h => by
    by_cases ha : a = k
    · subst ha
      have hk : a ≠ k' := fun hh => h hh.symm
      simp [oset, olookup, hk]
    · simp only [oset, if_neg ha, olookup]
      by_cases ha' : a = k'
      · simp [ha']
      · simp [ha', olookup_oset_ne rest k k' v h]

theorem olookup_oremove_self : ∀ (l : List (Nat × α)) (k : Nat),
    olookup k (oremove k l) = none
  | [], k => by simp [oremove, olookup]
  | (a, b) :: rest, k => by
    have ih := olookup_oremove_self rest k
    by_cases h : a = k
    · simpa [oremove, List.filter, h] using ih
    · simpa [oremove, List.filter, h, olookup] using ih

theorem olookup_mem : ∀ (l : List (Nat × α)) (k : Nat) (v : α),
    olookup k l = some v → (k, v) ∈ l
  | [], k, v, h => by simp [olookup] at h
  | (a, b) :: rest, k, v, h => by
    by_cases ha : a = k
    · subst ha
      simp [olookup] at h
      simp [h]
    · simp [olookup, ha] at h
      exact List.mem_cons_of_mem _ (olookup_mem rest k v h)

theorem mem_oset : ∀ (l : List (Nat × α)) (k : Nat) (v : α) (kv : Nat × α),
    kv ∈ oset k v l → kv = (k, v) ∨ kv ∈ l
  | [], k, v, kv, h => by simpa [oset] using h
  | (a, b) :: rest, k, v, kv, h => by
    by_cases ha : a = k
    · subst ha
      simp [oset] at h
      rcases h with h | h
      · exact Or.inl (by simp [h])
      · exact Or.inr (List.mem_cons_of_mem _ h)
    · simp [oset, ha] at h
      rcases h with h | h
      · exact Or.inr (by simp [h])
      · rcases mem_oset rest k v kv h with h' | h'
        · exact Or.inl h'
        · exact Or.inr (List.mem_cons_of_mem _ h')

theorem keys_oset_of_lookup : ∀ (l : List (Nat × α)) (k : Nat) (v w : α),
    olookup k l = some w → (oset k v l).map Prod.fst = l.map Prod.fst
  | [], k, v, w, h => by simp [olookup] at h
  | (a, b) :: rest, k, v, w, h => by
    by_cases ha : a = k
    · simp [oset, ha]
    · simp [olookup, ha] at h
      simp [oset, ha, keys_oset_of_lookup rest k v w h]

theorem olookup_append_none : ∀ (l l' : List (Nat × α)) (k : Nat),
    olookup k l = none → olookup k (l ++ l') = olookup k l'
  | [], l', k, _ => by simp
  | (a, b) :: rest, l', k, h => by
    by_cases ha : a = k
    · simp [olookup, ha] at h
    · simp [olookup, ha] at h ⊢
      exact olookup_append_none rest l' k h

theorem clookup_cadd (s s' : Nat) (v : Int) (c : List (Nat × Int)) :
    clookup s (cadd s' v c) = clookup s c + (if s' = s then v else 0) := by
  by_cases h : s' = s
  · subst h
    simp [clookup, cadd, olookup_oset_self]
  · simp [clookup, cadd, olookup_oset_ne c s' s _ (fun hh => h hh.symm), h]

/-! ### Claim C8 — `end_of_week` -/

/-- A Saturday bar at the closing time. -/
def satBar : MarketEventLocal := ⟨5, 16 * 3600⟩

/-- C8 counterexample: a MarketEvent whose New-York local weekday is
Saturday (5) with local time 16:00 has `end_of_week = true` although its
weekday is not Friday, refuting the claim that `end_of_week` holds exactly
when `end_of_day` holds and the weekday is Friday. -/
theorem end_of_week_saturday_cex :
    satBar.end_of_week = true ∧ satBar.end_of_day = true ∧ satBar.dayofweek ≠ 4 := by
  refine ⟨by decide, by decide, by decide⟩

/-- C8 (amended): `end_of_week` is true exactly when `end_of_day` is true
and the local weekday is Friday **or later** (pandas dayofweek ≥ 4), since
the source compares `local_ts.dayofweek >= FRIDAY`. -/
theorem end_of_week_ge_friday (e : MarketEventLocal) :
    e.end_of_week = true ↔ (e.end_of_day = true ∧ 4 ≤ e.dayofweek) := by
  simp [MarketEventLocal.end_of_week]

/-! ### Claim C10 — falsy commission -/

/-- C10: a `FillEvent` constructed with a falsy commission argument
(`None` or `0`) stores the broker-computed IB commission
`min(0.005·quantity, 0.005·fill_cost·quantity)`; a non-zero explicit
commission is stored as given. -/
theorem fill_event_falsy_commission (q : Int) (fc : ℚ) :
    storedCommission q fc none = min ((5 : ℚ) / 1000 * q) ((5 : ℚ) / 1000 * fc * q) ∧
    storedCommission q fc (some 0) = min ((5 : ℚ) / 1000 * q) ((5 : ℚ) / 1000 * fc * q) ∧
    ∀ c : ℚ, c ≠ 0 → storedCommission q fc (some c) = c := by
  refine ⟨rfl, by simp [storedCommission, commissionIB], ?_⟩
  intro c hc
  simp [storedCommission, hc]

/-- C10 witness: a concrete falsy and a concrete truthy commission. -/
theorem fill_event_falsy_commission_witness :
    storedCommission 100 10 none = min ((5 : ℚ) / 1000 * 100) ((5 : ℚ) / 1000 * 10 * 100) ∧
    ((7 : ℚ) ≠ 0 ∧ storedCommission 100 10 (some 7) = 7) :=
  ⟨(fill_event_falsy_commission 100 10).1,
   by norm_num, (fill_event_falsy_commission 100 10).2.2 7 (by norm_num)⟩

/-! ### Claim C7 — `SimuBook.on_order` idempotency -/

/-- A concrete order. -/
def ord7 : OrderEvent := ⟨1, 0, .mkt, 10, 1⟩

/-- C7 counterexample: submitting the same order twice does not leave the
book in the state a single submission produces — the id queue gains a
duplicate entry. -/
theorem simubook_on_order_not_idempotent_cex :
    SimuBook.on_order (SimuBook.on_order emptyBook ord7) ord7 ≠
      SimuBook.on_order emptyBook ord7 := by
  intro h
  have h2 := congrArg SimuBook.orders h
  simp [SimuBook.on_order, emptyBook] at h2

/-- C7 (amended): `on_order` on a repeated order id leaves `fillings`
unchanged (the insert is guarded) but unconditionally appends the id to
the FIFO `orders` queue, so the state after two submissions is the state
after one with a duplicate queue entry. -/
theorem simubook_on_order_repeat (b : SimuBook) (o : OrderEvent) :
    SimuBook.on_order (SimuBook.on_order b o) o =
      { SimuBook.on_order b o with
        orders := (SimuBook.on_order b o).orders ++ [o.id] } := by
  cases h : olookup o.id b.fillings with
  | none =>
    have h2 : olookup o.id (b.fillings ++ [(o.id, ⟨o, [], (o.quantity : Int), .submitted⟩)]) =
        some ⟨o, [], (o.quantity : Int), .submitted⟩ := by
      rw [olookup_append_none _ _ _ h]
      simp [olookup]
    simp [SimuBook.on_order, h, h2]
  | some fl =>
    simp [SimuBook.on_order, h]

/-! ### Claim C9 — rebalance with a stale open trade -/

theorem check_hard_stop_fields (p : Position) :
    (p.check_hard_stop).trades = p.trades ∧
    (p.check_hard_stop).open_trade = p.open_trade ∧
    (p.check_hard_stop).rebalance = p.rebalance ∧
    (p.check_hard_stop).pct_portfolio = p.pct_portfolio := by
  unfold Position.check_hard_stop
  split
  · exact ⟨rfl, rfl, rfl, rfl⟩
  · split
    · simp [Position.gen_signal, Position.put_signal]
    · exact ⟨rfl, rfl, rfl, rfl⟩

theorem check_rebalance_sets (q : Position) (hq : q.rebalance ≠ 0) (ht : q.t = 0) :
    (q.check_rebalance).signals.rebalance =
      some ⟨q.position, if q.position = .exit then 0 else q.pct_portfolio⟩ := by
  unfold Position.check_rebalance
  rw [if_neg hq, ht]
  simp [Position.gen_signal, Position.put_signal]

/-- C9: a Position that still holds a trade but has no open trade (for
example right after a closing order is confirmed) reports `t = 0`, so with
a positive rebalance period `_calculate_signals` emits a rebalance-level
signal on every bar, typed with the position's current direction. -/
theorem stale_open_trade_rebalance_every_bar (p : Position)
    (h1 : p.trades ≠ []) (h2 : p.open_trade_get = none) (h3 : 0 < p.rebalance) :
    p.t = 0 ∧
    (p.calculate_signals).signals.rebalance =
      some ⟨p.position, if p.position = .exit then 0 else p.pct_portfolio⟩ := by
  have ht : p.t = 0 := by simp [Position.t, h2]
  refine ⟨ht, ?_⟩
  have hps : p.has_position = true := by
    simp [Position.has_position, List.isEmpty_iff, h1]
  obtain ⟨e1, e2, e3, e4⟩ := check_hard_stop_fields p
  have hq : (p.check_hard_stop).quantity = p.quantity := by
    unfold Position.quantity
    rw [e1]
  have hpos : (p.check_hard_stop).position = p.position := by
    unfold Position.position
    rw [hq]
  have ht' : (p.check_hard_stop).t = 0 := by
    unfold Position.t Position.open_trade_get
    rw [e1, e2]
    unfold Position.t Position.open_trade_get at ht
    exact ht
  unfold Position.calculate_signals
  rw [hps]
  simp only [if_true]
  rw [check_rebalance_sets _ (by rw [e3]; omega) ht', hpos, e4]

/-- A trade whose closing order is pending while its open trade pointer is
cleared. -/
def tradeW : Trade :=
  { t := 5, position := 1, open_quantity := 2, quantity := 0, realized := 0,
    cost := 0, max_cost := 20, max_profit := 1, orders := [(1, ⟨2, -1⟩)],
    share_queue := [], tickClose := 10 }

/-- A position holding `tradeW` with no open trade. -/
def posW : Position :=
  { symbol := 0, pct_portfolio := 1 / 2, rebalance := 3, hard_stop := 0,
    tickClose := 10, open_trade := none, trades := [(0, tradeW)],
    trade_mapper := [(1, 0)], signals := Signals.empty }

/-- C9 witness. -/
theorem stale_open_trade_rebalance_every_bar_witness :
    posW.trades ≠ [] ∧ posW.open_trade_get = none ∧ 0 < posW.rebalance ∧
    (posW.t = 0 ∧
      (posW.calculate_signals).signals.rebalance =
        some ⟨posW.position, if posW.position = .exit then 0 else posW.pct_portfolio⟩) :=
  ⟨by decide, by decide, by decide,
   stale_open_trade_rebalance_every_bar posW (by decide) (by decide) (by decide)⟩

/-! ### Claim C6 — buying-power gate in `BaseStrategy.on_order` -/

/-- C6: `on_order(order, lvl, bp)` with enough buying power invokes the
level-specific callback, confirms the order on the symbol's position,
publishes it and returns `need_bp`; with insufficient buying power it
returns 0 and changes nothing. -/
theorem strategy_on_order_buying_power_gate (s : Strategy) (o : OrderEvent)
    (lvl : Level) (bp : ℚ) (fresh : Nat) :
    ((o.quantity : ℚ) * s.ticks o.symbol ≤ bp →
      (Strategy.on_order s o lvl bp fresh).2 = (o.quantity : ℚ) * s.ticks o.symbol ∧
      (Strategy.on_order s o lvl bp fresh).1.published = s.published ++ [o] ∧
      olookup o.symbol (Strategy.on_order s o lvl bp fresh).1.pos =
        (olookup o.symbol s.pos).map (fun p => p.confirm_order o fresh) ∧
      (Strategy.on_order s o lvl bp fresh).1.cash = s.cash ∧
      (Strategy.on_order s o lvl bp fresh).1.commission = s.commission ∧
      (lvl = .hard_stop → (Strategy.on_order s o lvl bp fresh).1.hard_stop_calls =
        s.hard_stop_calls ++ [o.symbol]) ∧
      (lvl = .rebalance → (Strategy.on_order s o lvl bp fresh).1.rebalance_calls =
        s.rebalance_calls ++ [o.symbol])) ∧
    (¬ (o.quantity : ℚ) * s.ticks o.symbol ≤ bp →
      Strategy.on_order s o lvl bp fresh = (s, 0)) := by
  constructor
  · intro h
    unfold Strategy.on_order
    rw [if_pos h]
    cases hl : olookup o.symbol s.pos with
    | none => cases lvl <;> simp [hl]
    | some p => cases lvl <;> simp [hl, olookup_oset_self]
  · intro h
    unfold Strategy.on_order
    rw [if_neg h]

/-- A concrete strategy for the C6 witness. -/
def stgyW : Strategy :=
  { pos := [(0, posW)], ticks := fun _ => 10, cash := 50, commission := 1,
    published := [], hard_stop_calls := [], rebalance_calls := [] }

/-- A concrete order for the C6 witness. -/
def ordW : OrderEvent := ⟨3, 0, .mkt, 2, 1⟩

/-- C6 witness. -/
theorem strategy_on_order_buying_power_gate_witness :
    ((ordW.quantity : ℚ) * stgyW.ticks ordW.symbol ≤ 100) ∧
    ((Strategy.on_order stgyW ordW .rebalance 100 9).2 =
        (ordW.quantity : ℚ) * stgyW.ticks ordW.symbol ∧
      (Strategy.on_order stgyW ordW .rebalance 100 9).1.published =
        stgyW.published ++ [ordW] ∧
      olookup ordW.symbol (Strategy.on_order stgyW ordW .rebalance 100 9).1.pos =
        (olookup ordW.symbol stgyW.pos).map (fun p => p.confirm_order ordW 9) ∧
      (Strategy.on_order stgyW ordW .rebalance 100 9).1.cash = stgyW.cash ∧
      (Strategy.on_order stgyW ordW .rebalance 100 9).1.commission = stgyW.commission ∧
      (Level.rebalance = Level.hard_stop →
        (Strategy.on_order stgyW ordW .rebalance 100 9).1.hard_stop_calls =
          stgyW.hard_stop_calls ++ [ordW.symbol]) ∧
      (Level.rebalance = Level.rebalance →
        (Strategy.on_order stgyW ordW .rebalance 100 9).1.rebalance_calls =
          stgyW.rebalance_calls ++ [ordW.symbol])) :=
  ⟨by norm_num [stgyW, ordW],
   (strategy_on_order_buying_power_gate stgyW ordW .rebalance 100 9).1
     (by norm_num [stgyW, ordW])⟩

/-! ### Claim C3 — `Position.generate_orders` -/

/-- C3: `generate_orders` clears the signal buffer, selects the most
urgent occupied level in the order hard_stop, normal, rebalance, and
yields the three-case delta set (single target, difference, or close-then-
reverse pair), skipping zero deltas, as MKT orders of quantity `|q|` with
direction BUY/SELL by the sign of `q`, paired with the selected level. -/
theorem generate_orders_priority_and_deltas (p : Position) (equity : ℚ) (fresh : Nat) :
    ((p.generate_orders equity fresh).2.signals = Signals.empty) ∧
    (∀ s, p.signals.hard_stop = some s → p.selected = some (s, .hard_stop)) ∧
    (p.signals.hard_stop = none → ∀ s, p.signals.normal = some s →
      p.selected = some (s, .normal)) ∧
    (p.signals.hard_stop = none → p.signals.normal = none → ∀ s,
      p.signals.rebalance = some s → p.selected = some (s, .rebalance)) ∧
    (p.selected = none → (p.generate_orders equity fresh).1 = []) ∧
    (∀ sig lvl, p.selected = some (sig, lvl) →
      (p.generate_orders equity fresh).1.map
          (fun ol => (ol.1.symbol, ol.1.order_type, ol.1.quantity, ol.1.direction, ol.2)) =
        ((if p.total_quantity = 0 then [sig.target_qty p.tickClose equity]
          else if (sig.target_qty p.tickClose equity).sign = p.total_quantity.sign then
            [sig.target_qty p.tickClose equity - p.total_quantity]
          else [-p.total_quantity, sig.target_qty p.tickClose equity]).filter
            (fun q => q ≠ 0)).map
          (fun q => (p.symbol, OrderType.mkt, q.natAbs,
            if (0 : Int) < q then (1 : Int) else -1, lvl))) := by
  refine ⟨?_, ?_, ?_, ?_, ?_, ?_⟩
  · unfold Position.generate_orders
    cases h : p.selected with
    | none => simp [Position.reset_signals]
    | some sl => simp [Position.reset_signals]
  · intro s hs
    unfold Position.selected
    rw [hs]
  · intro h0 s hs
    unfold Position.selected
    rw [h0, hs]
  · intro h0 h1 s hs
    unfold Position.selected
    rw [h0, h1, hs]
  · intro h
    unfold Position.generate_orders
    rw [h]
  · intro sig lvl hsel
    unfold Position.generate_orders
    rw [hsel]
    simp only [List.map_map]
    rw [show ((fun ol : OrderEvent × Level =>
        (ol.1.symbol, ol.1.order_type, ol.1.quantity, ol.1.direction, ol.2)) ∘
        (fun iq : Nat × Int =>
          (({ id := fresh + iq.1, symbol := p.symbol, order_type := .mkt,
              quantity := iq.2.natAbs,
              direction := if (0 : Int) < iq.2 then 1 else -1 } : OrderEvent), lvl))) =
        (fun q : Int => (p.symbol, OrderType.mkt, q.natAbs,
          if (0 : Int) < q then (1 : Int) else -1, lvl)) ∘ Prod.snd from rfl]
    rw [← List.map_map, List.enum_map_snd]

/-- A concrete position holding only a rebalance signal, for the C3
witness. -/
def posG : Position :=
  { symbol := 2, pct_portfolio := 1 / 2, rebalance := 0, hard_stop := 0,
    tickClose := 10, open_trade := none, trades := [], trade_mapper := [],
    signals := ⟨none, none, some ⟨.long, 1 / 2⟩⟩ }

/-- C3 witness: on `posG` with equity 100 the selected signal is the
rebalance one and a single BUY 5 MKT order is yielded. -/
theorem generate_orders_priority_and_deltas_witness :
    posG.selected = some (⟨.long, 1 / 2⟩, .rebalance) ∧
    (posG.generate_orders 100 0).1.map
        (fun ol => (ol.1.symbol, ol.1.order_type, ol.1.quantity, ol.1.direction, ol.2)) =
      ((if posG.total_quantity = 0 then [SignalPct.target_qty ⟨.long, 1 / 2⟩ posG.tickClose 100]
        else if (SignalPct.target_qty ⟨.long, 1 / 2⟩ posG.tickClose 100).sign =
            posG.total_quantity.sign then
          [SignalPct.target_qty ⟨.long, 1 / 2⟩ posG.tickClose 100 - posG.total_quantity]
        else [-posG.total_quantity, SignalPct.target_qty ⟨.long, 1 / 2⟩ posG.tickClose 100]).filter
          (fun q => q ≠ 0)).map
        (fun q => (posG.symbol, OrderType.mkt, q.natAbs,
          if (0 : Int) < q then (1 : Int) else -1, Level.rebalance)) :=
  ⟨rfl,
   (generate_orders_priority_and_deltas posG 100 0).2.2.2.2.2 ⟨.long, 1 / 2⟩
     .rebalance rfl⟩

/-! ### Claim C4 — slippage model and per-bar volume cap -/

theorem slippage_filled_fst (price : ℚ) (v oq dir fv : Int) (hv : ¬ v ≤ 0) :
    (slippage price v oq dir fv).1 =
      ⌊min (oq : ℚ) (max 0 (slippage_limit * v - fv))⌋ := by
  unfold slippage
  rw [if_neg hv]

theorem slippage_filled_bounds (price : ℚ) (v oq dir fv : Int) (hoq : 0 ≤ oq) :
    0 ≤ (slippage price v oq dir fv).1 ∧
    (slippage price v oq dir fv).1 ≤ oq ∧
    ((slippage price v oq dir fv).1 : ℚ) ≤ max 0 (slippage_limit * v - fv) := by
  by_cases hv : v ≤ 0
  · have h0 : slippage price v oq dir fv = (0, 0) := by
      unfold slippage
      rw [if_pos hv]
    rw [h0]
    exact ⟨le_refl 0, hoq, by
      push_cast
      exact le_max_left (0 : ℚ) (slippage_limit * v - fv)⟩
  · rw [slippage_filled_fst price v oq dir fv hv]
    refine ⟨?_, ?_, ?_⟩
    · exact Int.le_floor.mpr (le_min (by exact_mod_cast hoq) (le_max_left _ _))
    · have h1 : (⌊min (oq : ℚ) (max 0 (slippage_limit * v - fv))⌋ : Int) ≤ ⌊(oq : ℚ)⌋ :=
        Int.floor_le_floor (min_le_left _ _)
      simpa using h1
    · exact le_trans (Int.floor_le _) (min_le_right _ _)

theorem fillsFor_append (s : Nat) (l l' : List FillEvent) :
    fillsFor s (l ++ l') = fillsFor s l + fillsFor s l' := by
  simp [fillsFor]

theorem place_order_cap (b : SimuBook) (o : OrderEvent) (s : Nat) (T : Nat → Tick)
    (ht : b.ticks = T)
    (hofq : ∀ kv ∈ b.fillings, 0 ≤ kv.2.open_quantity)
    (hc0 : 0 ≤ clookup s b.filled_counter)
    (hcap : (clookup s b.filled_counter : ℚ) ≤
      max 0 (slippage_limit * (T s).volume)) :
    (∀ kv ∈ (b.place_order o).1.fillings, 0 ≤ kv.2.open_quantity) ∧
    (b.place_order o).1.ticks = T ∧
    0 ≤ clookup s (b.place_order o).1.filled_counter ∧
    ((clookup s (b.place_order o).1.filled_counter : ℚ) ≤
      max 0 (slippage_limit * (T s).volume)) ∧
    ((fillsFor s ((b.place_order o).2.toList) : ℚ) =
      clookup s (b.place_order o).1.filled_counter - clookup s b.filled_counter) := by
  unfold SimuBook.place_order
  cases hfl : olookup o.id b.fillings with
  | none => exact ⟨hofq, ht, hc0, hcap, by simp [fillsFor]⟩
  | some fl =>
    dsimp only
    rw [ht]
    have hflq : 0 ≤ fl.open_quantity := hofq (o.id, fl) (olookup_mem _ _ _ hfl)
    obtain ⟨hf0, hfle, hfcap⟩ := slippage_filled_bounds
      (((T o.symbol).high + (T o.symbol).low + (T o.symbol).close) / 3)
      (T o.symbol).volume fl.open_quantity o.direction
      (max 0 (clookup o.symbol b.filled_counter)) hflq
    set F := (slippage
      (((T o.symbol).high + (T o.symbol).low + (T o.symbol).close) / 3)
      (T o.symbol).volume fl.open_quantity o.direction
      (max 0 (clookup o.symbol b.filled_counter))).1 with hFdef
    have hcnt : clookup s (cadd o.symbol F b.filled_counter) =
        clookup s b.filled_counter + (if o.symbol = s then F else 0) :=
      clookup_cadd s o.symbol F b.filled_counter
    have hcnt0 : 0 ≤ clookup s (cadd o.symbol F b.filled_counter) := by
      rw [hcnt]
      by_cases hs : o.symbol = s
      · simp only [if_pos hs]
        omega
      · simp only [if_neg hs]
        omega
    have hcntcap : (clookup s (cadd o.symbol F b.filled_counter) : ℚ) ≤
        max 0 (slippage_limit * (T s).volume) := by
      rw [hcnt]
      by_cases hs : o.symbol = s
      · subst hs
        rw [max_eq_right hc0] at hfcap
        simp only [if_pos rfl]
        push_cast
        rcases le_total ((clookup o.symbol b.filled_counter : ℚ))
            (slippage_limit * ((T o.symbol).volume : ℚ)) with hcm | hcm
        · have hF2 : (F : ℚ) ≤
              slippage_limit * ((T o.symbol).volume : ℚ) -
                (clookup o.symbol b.filled_counter : ℚ) := by
            refine le_trans hfcap ?_
            rw [max_eq_right (by linarith)]
          have h2 : (clookup o.symbol b.filled_counter : ℚ) + (F : ℚ) ≤
              slippage_limit * ((T o.symbol).volume : ℚ) := by linarith
          exact le_trans h2 (le_max_right _ _)
        · have hm0 : max (0 : ℚ) (slippage_limit * ((T o.symbol).volume : ℚ) -
              (clookup o.symbol b.filled_counter : ℚ)) = 0 := max_eq_left (by linarith)
          rw [hm0] at hfcap
          have h2 : (clookup o.symbol b.filled_counter : ℚ) + (F : ℚ) ≤
              (clookup o.symbol b.filled_counter : ℚ) := by linarith
          exact le_trans h2 hcap
      · simp only [if_neg hs]
        push_cast
        linarith [hcap]
    by_cases hne : F ≠ 0
    · rw [if_pos hne]
      refine ⟨?_, rfl, hcnt0, hcntcap, ?_⟩
      · intro kv hkv
        rcases mem_oset _ _ _ _ hkv with h | h
        · rw [h]
          show 0 ≤ fl.open_quantity - F
          omega
        · exact hofq _ h
      · rw [hcnt]
        by_cases hs : o.symbol = s
        · subst hs
          simp [fillsFor]
          try push_cast
          try ring
        · simp [fillsFor, hs]
    · rw [if_neg hne]
      push_neg at hne
      refine ⟨hofq, rfl, hcnt0, hcntcap, ?_⟩
      rw [hcnt]
      by_cases hs : o.symbol = s <;> simp [fillsFor, hs, hne]

theorem fill_orders_cap (s : Nat) (T : Nat → Tick) : ∀ (oids : List Nat) (b : SimuBook),
    b.ticks = T →
    (∀ kv ∈ b.fillings, 0 ≤ kv.2.open_quantity) →
    0 ≤ clookup s b.filled_counter →
    ((clookup s b.filled_counter : ℚ) ≤ max 0 (slippage_limit * (T s).volume)) →
    (∀ kv ∈ (SimuBook.fill_orders b oids).1.fillings, 0 ≤ kv.2.open_quantity) ∧
    (SimuBook.fill_orders b oids).1.ticks = T ∧
    0 ≤ clookup s (SimuBook.fill_orders b oids).1.filled_counter ∧
    ((clookup s (SimuBook.fill_orders b oids).1.filled_counter : ℚ) ≤
      max 0 (slippage_limit * (T s).volume)) ∧
    ((fillsFor s (SimuBook.fill_orders b oids).2 : ℚ) =
      clookup s (SimuBook.fill_orders b oids).1.filled_counter -
        clookup s b.filled_counter)
  | [], b => by
    intro ht h1 h2 h3
    refine ⟨h1, ht, h2, h3, ?_⟩
    simp [SimuBook.fill_orders, fillsFor]
  | oid :: rest, b => by
    intro ht h1 h2 h3
    unfold SimuBook.fill_orders
    cases hfl : olookup oid b.fillings with
    | none => exact fill_orders_cap s T rest b ht h1 h2 h3
    | some fl =>
      dsimp only
      have h1' : ∀ kv ∈ (oset oid { fl with status := FillStatus.filling } b.fillings),
          0 ≤ kv.2.open_quantity := by
        intro kv hkv
        rcases mem_oset _ _ _ _ hkv with h | h
        · rw [h]
          exact h1 (oid, fl) (olookup_mem _ _ _ hfl)
        · exact h1 _ h
      obtain ⟨p1, p2, p3, p4, p5⟩ := place_order_cap
        { b with fillings := oset oid { fl with status := FillStatus.filling } b.fillings }
        fl.order s T ht h1' h2 h3
      obtain ⟨q1, q2, q3, q4, q5⟩ := fill_orders_cap s T rest
        (({ b with fillings := oset oid { fl with status := FillStatus.filling } b.fillings
          } : SimuBook).place_order fl.order).1 p2 p1 p3 p4
      refine ⟨q1, q2, q3, q4, ?_⟩
      rw [fillsFor_append]
      have hXc : ({ b with
          fillings := oset oid { fl with status := FillStatus.filling } b.fillings
        } : SimuBook).filled_counter = b.filled_counter := rfl
      rw [hXc] at p5
      push_cast
      rw [q5, p5]
      ring

/-- C4: with positive bar volume `slippage` returns the floored
volume-capped fill and the rounded impacted price, `(0, 0)` otherwise;
and across one `SimuBook.on_market` call the total filled quantity per
symbol (tracked by `filled_counter`, cleared at bar end) never exceeds
`SLIPPAGE_LIMIT` times the bar volume. -/
theorem slippage_formula_and_volume_cap :
    (∀ (price : ℚ) (v oq dir fv : Int), 0 < v →
      slippage price v oq dir fv =
        (⌊min (oq : ℚ) (max 0 ((25 : ℚ) / 1000 * v - fv))⌋,
         round3 (price + dir * max ((3 : ℚ) / 1000)
           ((min ((⌊min (oq : ℚ) (max 0 ((25 : ℚ) / 1000 * v - fv))⌋ : ℚ) / (v : ℚ))
             ((25 : ℚ) / 1000)) ^ 2 * ((1 : ℚ) / 10) * price)))) ∧
    (∀ (price : ℚ) (v oq dir fv : Int), v ≤ 0 → slippage price v oq dir fv = (0, 0)) ∧
    (∀ (b : SimuBook) (ticks : Nat → Tick) (s : Nat),
      b.filled_counter = [] →
      (∀ kv ∈ b.fillings, 0 ≤ kv.2.open_quantity) →
      0 ≤ (ticks s).volume →
      (fillsFor s (b.on_market ticks).2 : ℚ) ≤ (25 : ℚ) / 1000 * (ticks s).volume) := by
  refine ⟨?_, ?_, ?_⟩
  · intro price v oq dir fv hv
    unfold slippage
    rw [if_neg (not_le.mpr hv)]
    simp only [slippage_limit, min_impact, price_impact_coef]
    rw [add_comm]
  · intro price v oq dir fv hv
    unfold slippage
    rw [if_pos hv]
  · intro b ticks s hc hofq hv
    have hLv : (0 : ℚ) ≤ slippage_limit * ((ticks s).volume : ℚ) :=
      mul_nonneg (by norm_num [slippage_limit]) (by exact_mod_cast hv)
    unfold SimuBook.on_market
    have h0 : clookup s (({ b with ticks := ticks, orders := [] } : SimuBook).filled_counter) =
        clookup s b.filled_counter := rfl
    have h0' : clookup s b.filled_counter = 0 := by
      simp [hc, clookup, olookup]
    obtain ⟨_, _, _, h4, h5⟩ := fill_orders_cap s ticks b.orders
      { b with ticks := ticks, orders := [] } rfl hofq
      (by rw [h0, h0']) (by rw [h0, h0']; push_cast; exact le_max_left _ _)
    rw [h5, h0, h0']
    have hmx : max 0 (slippage_limit * ((ticks s).volume : ℚ)) =
        slippage_limit * ((ticks s).volume : ℚ) := max_eq_right hLv
    rw [hmx] at h4
    simp only [slippage_limit] at h4
    push_cast at h4 ⊢
    linarith

/-- A concrete bar for the C4 witness. -/
def tickW : Tick := ⟨3, 3, 3, 3, 1000000⟩

/-- A concrete pending order for the C4 witness. -/
def ordW4 : OrderEvent := ⟨1, 0, .mkt, 10, 1⟩

/-- A concrete book with one pending order for the C4 witness. -/
def bW : SimuBook :=
  { orders := [1], fillings := [(1, ⟨ordW4, [], 10, .submitted⟩)],
    ticks := fun _ => tickW, filled_counter := [] }

/-- C4 witness: concrete instances of the three conjuncts. -/
theorem slippage_formula_and_volume_cap_witness :
    ((0 : Int) < 2 ∧ slippage 3 2 10 1 0 =
      (⌊min ((10 : Int) : ℚ) (max 0 ((25 : ℚ) / 1000 * ((2 : Int) : ℚ) - ((0 : Int) : ℚ)))⌋,
       round3 ((3 : ℚ) + ((1 : Int) : ℚ) * max ((3 : ℚ) / 1000)
         ((min ((⌊min ((10 : Int) : ℚ)
             (max 0 ((25 : ℚ) / 1000 * ((2 : Int) : ℚ) - ((0 : Int) : ℚ)))⌋ : ℚ) / ((2 : Int) : ℚ))
           ((25 : ℚ) / 1000)) ^ 2 * ((1 : ℚ) / 10) * 3)))) ∧
    ((-1 : Int) ≤ 0 ∧ slippage 3 (-1) 10 1 0 = (0, 0)) ∧
    (bW.filled_counter = [] ∧ (∀ kv ∈ bW.fillings, 0 ≤ kv.2.open_quantity) ∧
      (0 : Int) ≤ ((fun _ => tickW) 0).volume ∧
      (fillsFor 0 (bW.on_market (fun _ => tickW)).2 : ℚ) ≤
        (25 : ℚ) / 1000 * ((((fun _ => tickW) 0).volume : Int) : ℚ)) :=
  ⟨⟨by norm_num, slippage_formula_and_volume_cap.1 3 2 10 1 0 (by norm_num)⟩,
   ⟨by norm_num, slippage_formula_and_volume_cap.2.1 3 (-1) 10 1 0 (by norm_num)⟩,
   rfl, by decide, by decide,
   slippage_formula_and_volume_cap.2.2 bW (fun _ => tickW) 0 rfl (by decide) (by decide)⟩

/-! ### Claim C2 — fills reference strictly earlier bars -/

/-- Well-formedness of a book: each fillings record is keyed by its
order's id (as `on_order` inserts them). -/
def keysOk (b : SimuBook) : Prop :=
  ∀ kv ∈ b.fillings, kv.2.order.id = kv.1

theorem place_order_book_inv (b : SimuBook) (o : OrderEvent) :
    (b.place_order o).1.orders = b.orders ∧
    (b.place_order o).1.fillings.map Prod.fst = b.fillings.map Prod.fst ∧
    (keysOk b → keysOk (b.place_order o).1) ∧
    (∀ f, (b.place_order o).2 = some f → f.order_id = o.id) := by
  unfold SimuBook.place_order
  cases hfl : olookup o.id b.fillings with
  | none => exact ⟨rfl, rfl, fun h => h, fun f hf => by simp at hf⟩
  | some fl =>
    dsimp only
    by_cases hne : (slippage
        (((b.ticks o.symbol).high + (b.ticks o.symbol).low + (b.ticks o.symbol).close) / 3)
        (b.ticks o.symbol).volume fl.open_quantity o.direction
        (max 0 (clookup o.symbol b.filled_counter))).1 ≠ 0
    · rw [if_pos hne]
      refine ⟨rfl, keys_oset_of_lookup _ _ _ _ hfl, ?_, ?_⟩
      · intro hk kv hkv
        rcases mem_oset _ _ _ _ hkv with h | h
        · rw [h]
          exact hk (o.id, fl) (olookup_mem _ _ _ hfl)
        · exact hk _ h
      · intro f hf
        simp only [Option.some.injEq] at hf
        rw [← hf]
    · rw [if_neg hne]
      exact ⟨rfl, rfl, fun h => h, fun f hf => by simp at hf⟩

theorem fill_orders_book_inv : ∀ (oids : List Nat) (b : SimuBook), keysOk b →
    (SimuBook.fill_orders b oids).1.orders = b.orders ∧
    (SimuBook.fill_orders b oids).1.fillings.map Prod.fst = b.fillings.map Prod.fst ∧
    keysOk (SimuBook.fill_orders b oids).1 ∧
    (∀ f ∈ (SimuBook.fill_orders b oids).2, f.order_id ∈ oids)
  | [], b => fun hk => ⟨rfl, rfl, hk, by simp [SimuBook.fill_orders]⟩
  | oid :: rest, b => by
    intro hk
    unfold SimuBook.fill_orders
    cases hfl : olookup oid b.fillings with
    | none =>
      obtain ⟨r1, r2, r3, r4⟩ := fill_orders_book_inv rest b hk
      exact ⟨r1, r2, r3, fun f hf => List.mem_cons_of_mem _ (r4 f hf)⟩
    | some fl =>
      dsimp only
      have hoid : fl.order.id = oid := hk (oid, fl) (olookup_mem _ _ _ hfl)
      have hk1 : keysOk { b with
          fillings := oset oid { fl with status := FillStatus.filling } b.fillings } := by
        intro kv hkv
        rcases mem_oset _ _ _ _ hkv with h | h
        · rw [h]
          exact hoid
        · exact hk _ h
      obtain ⟨p1, p2, p3, p4⟩ := place_order_book_inv
        { b with fillings := oset oid { fl with status := FillStatus.filling } b.fillings }
        fl.order
      obtain ⟨q1, q2, q3, q4⟩ := fill_orders_book_inv rest
        (({ b with fillings := oset oid { fl with status := FillStatus.filling } b.fillings
          } : SimuBook).place_order fl.order).1 (p3 hk1)
      refine ⟨by rw [q1, p1], ?_, q3, ?_⟩
      · rw [q2, p2]
        exact keys_oset_of_lookup _ _ _ _ hfl
      · intro f hf
        rcases List.mem_append.mp hf with h | h
        · cases hpf : (({ b with
              fillings := oset oid { fl with status := FillStatus.filling } b.fillings
            } : SimuBook).place_order fl.order).2 with
          | none => simp [hpf] at h
          | some fe =>
            rw [hpf] at h
            simp only [Option.toList_some, List.mem_singleton] at h
            rw [h, p4 fe hpf, hoid]
            exact List.mem_cons_self _ _
        · exact List.mem_cons_of_mem _ (q4 f h)

theorem on_market_book_inv (b : SimuBook) (t : Nat → Tick) (hk : keysOk b) :
    keysOk (b.on_market t).1 ∧
    (∀ oid, oid ∈ (b.on_market t).1.orders ++ (b.on_market t).1.fillings.map Prod.fst →
      oid ∈ b.fillings.map Prod.fst) ∧
    (∀ f ∈ (b.on_market t).2, f.order_id ∈ b.orders) := by
  unfold SimuBook.on_market
  have hk0 : keysOk { b with ticks := t, orders := ([] : List Nat) } := hk
  obtain ⟨r1, r2, r3, r4⟩ := fill_orders_book_inv b.orders
    { b with ticks := t, orders := [] } hk0
  dsimp only
  refine ⟨?_, ?_, r4⟩
  · intro kv hkv
    exact r3 kv (List.mem_filter.mp hkv).1
  · intro oid hoid
    rw [← r2]
    rcases List.mem_append.mp hoid with h | h
    · rw [r1] at h
      rcases List.mem_append.mp h with h' | h'
      · simp at h'
      · rcases List.mem_map.mp h' with ⟨kv, hkv, hid⟩
        exact hid ▸ List.mem_map_of_mem _ (List.mem_filter.mp hkv).1
    · rcases List.mem_map.mp h with ⟨kv, hkv, hid⟩
      exact hid ▸ List.mem_map_of_mem _ (List.mem_filter.mp hkv).1

theorem on_order_book_inv (b : SimuBook) (o : OrderEvent) (hk : keysOk b) :
    keysOk (b.on_order o) ∧
    (∀ oid, oid ∈ (b.on_order o).orders ++ (b.on_order o).fillings.map Prod.fst →
      oid ∈ b.orders ++ b.fillings.map Prod.fst ∨ oid = o.id) := by
  unfold SimuBook.on_order
  cases hfl : olookup o.id b.fillings with
  | none =>
    dsimp only
    constructor
    · intro kv hkv
      rcases List.mem_append.mp hkv with h | h
      · exact hk _ h
      · rw [List.mem_singleton.mp h]
    · intro oid hoid
      rcases List.mem_append.mp hoid with h | h
      · rcases List.mem_append.mp h with h' | h'
        · exact Or.inl (List.mem_append.mpr (Or.inl h'))
        · exact Or.inr (List.mem_singleton.mp h')
      · rw [List.map_append] at h
        rcases List.mem_append.mp h with h' | h'
        · exact Or.inl (List.mem_append.mpr (Or.inr h'))
        · simp at h'
          exact Or.inr h'
  | some fl =>
    dsimp only
    constructor
    · exact hk
    · intro oid hoid
      rcases List.mem_append.mp hoid with h | h
      · rcases List.mem_append.mp h with h' | h'
        · exact Or.inl (List.mem_append.mpr (Or.inl h'))
        · exact Or.inr (List.mem_singleton.mp h')
      · exact Or.inl (List.mem_append.mpr (Or.inr h))

theorem fold_on_order_book_inv : ∀ (os : List OrderEvent) (b : SimuBook), keysOk b →
    keysOk (os.foldl SimuBook.on_order b) ∧
    (∀ oid, oid ∈ (os.foldl SimuBook.on_order b).orders ++
        (os.foldl SimuBook.on_order b).fillings.map Prod.fst →
      oid ∈ b.orders ++ b.fillings.map Prod.fst ∨ oid ∈ os.map OrderEvent.id)
  | [], b => fun hk => ⟨hk, fun oid hoid => Or.inl hoid⟩
  | o :: os, b => by
    intro hk
    obtain ⟨h1, h2⟩ := on_order_book_inv b o hk
    obtain ⟨r1, r2⟩ := fold_on_order_book_inv os (b.on_order o) h1
    refine ⟨r1, ?_⟩
    intro oid hoid
    rcases r2 oid hoid with h | h
    · rcases h2 oid h with h' | h'
      · exact Or.inl h'
      · exact Or.inr (by rw [h']; exact List.mem_cons_self _ _)
    · exact Or.inr (List.mem_cons_of_mem _ h)

theorem runBars_earlier : ∀ (bars : List ((Nat → Tick) × List OrderEvent))
    (b : SimuBook) (Pre : Nat → Prop), keysOk b →
    (∀ oid, oid ∈ b.orders ++ b.fillings.map Prod.fst → Pre oid) →
    ∀ i fs, (runBars b bars).get? i = some fs → ∀ f ∈ fs,
      Pre f.order_id ∨
        ∃ j, j < i ∧ f.order_id ∈ (submittedAt bars j).map OrderEvent.id
  | [], b, Pre => by
    intro _ _ i fs hget
    simp [runBars] at hget
  | (t, os) :: rest, b, Pre => by
    intro hk hpre i fs hget
    obtain ⟨m1, m2, m3⟩ := on_market_book_inv b t hk
    cases i with
    | zero =>
      intro f hf
      simp only [runBars, List.get?] at hget
      have hfs : fs = (b.on_market t).2 := by
        simpa using hget.symm
      rw [hfs] at hf
      exact Or.inl (hpre _ (List.mem_append.mpr (Or.inl (m3 f hf))))
    | succ i =>
      intro f hf
      simp only [runBars, List.get?] at hget
      obtain ⟨f1, f2⟩ := fold_on_order_book_inv os (b.on_market t).1 m1
      have hpre' : ∀ oid, oid ∈ (os.foldl SimuBook.on_order (b.on_market t).1).orders ++
          (os.foldl SimuBook.on_order (b.on_market t).1).fillings.map Prod.fst →
          (Pre oid ∨ oid ∈ os.map OrderEvent.id) := by
        intro oid hoid
        rcases f2 oid hoid with h | h
        · exact Or.inl (hpre _ (List.mem_append.mpr (Or.inr (m2 oid h))))
        · exact Or.inr h
      have := runBars_earlier rest (os.foldl SimuBook.on_order (b.on_market t).1)
        (fun oid => Pre oid ∨ oid ∈ os.map OrderEvent.id) f1 hpre' i fs hget f hf
      rcases this with (h | h) | ⟨j, hj, hmem⟩
      · exact Or.inl h
      · exact Or.inr ⟨0, Nat.succ_pos _, by simpa [submittedAt] using h⟩
      · exact Or.inr ⟨j + 1, Nat.succ_lt_succ hj, by simpa [submittedAt] using hmem⟩

/-- C2: in the per-bar loop (executor processes the bar before the
strategy submits that bar's orders), every fill published at bar `i`
carries the order id of an order submitted at a strictly earlier bar. -/
theorem fills_reference_strictly_earlier_bars
    (bars : List ((Nat → Tick) × List OrderEvent)) (i : Nat)
    (fs : List FillEvent) (f : FillEvent)
    (hget : (runBars emptyBook bars).get? i = some fs) (hf : f ∈ fs) :
    ∃ j, j < i ∧ ∃ o ∈ submittedAt bars j, o.id = f.order_id := by
  have hres := runBars_earlier bars emptyBook (fun _ => False)
    (by intro kv hkv; simp [emptyBook] at hkv)
    (by intro oid hoid; simp [emptyBook] at hoid) i fs hget f hf
  rcases hres with h | ⟨j, hj, hmem⟩
  · exact absurd h not_false
  · rcases List.mem_map.mp hmem with ⟨o, ho, hid⟩
    exact ⟨j, hj, o, ho, hid⟩

/-- A concrete bar for the C2 witness. -/
def tickC2 : Tick := ⟨3, 3, 3, 3, 1000000⟩

/-- A concrete order submitted at bar 0. -/
def ordC2 : OrderEvent := ⟨5, 0, .mkt, 4, 1⟩

/-- Two bars: the order is submitted at bar 0, nothing at bar 1. -/
def barsC2 : List ((Nat → Tick) × List OrderEvent) :=
  [(fun _ => tickC2, [ordC2]), (fun _ => tickC2, [])]

/-- The book state after bar 0. -/
def bkC2 : SimuBook :=
  { orders := [5], fillings := [(5, ⟨ordC2, [], 4, .submitted⟩)],
    ticks := fun _ => tickC2, filled_counter := [] }

/-- The fill the executor publishes at bar 1. -/
def feC2 : FillEvent := ⟨5, 0, 4, 1, 3003 / 1000, 1 / 50⟩

/-- The empty book state after bar 1. -/
def bkC2e : SimuBook :=
  { orders := [], fillings := [], ticks := fun _ => tickC2, filled_counter := [] }

/-- C2 witness: in the concrete two-bar run the single fill, emitted at
bar 1, references the order submitted at bar 0. -/
theorem fills_reference_strictly_earlier_bars_witness :
    (runBars emptyBook barsC2).get? 1 = some [feC2] ∧ feC2 ∈ [feC2] ∧
    ∃ j, j < 1 ∧ ∃ o ∈ submittedAt barsC2 j, o.id = feC2.order_id := by
  have e1 : runBar emptyBook (fun _ => tickC2) [ordC2] = (bkC2, []) := rfl
  have e2 : runBar bkC2 (fun _ => tickC2) [] = (bkC2e, [feC2]) := by
    norm_num [runBar, SimuBook.on_market, SimuBook.fill_orders, SimuBook.place_order,
      slippage, slippage_limit, min_impact, price_impact_coef, round3,
      storedCommission, commissionIB, bkC2, bkC2e, tickC2, ordC2, feC2,
      olookup, oset, oremove, clookup, cadd, round_eq, min_def, max_def,
      List.foldl, List.filter]
  have hrun : runBars emptyBook barsC2 = [[], [feC2]] := by
    simp only [barsC2, runBars, e1, e2]
  refine ⟨by rw [hrun]; rfl, List.mem_singleton.mpr rfl,
    fills_reference_strictly_earlier_bars barsC2 1 [feC2] feC2 (by rw [hrun]; rfl)
      (List.mem_singleton.mpr rfl)⟩

/-! ### Claim C1 — closing fills consume FIFO lots -/

theorem lotsTotal_nil : lotsTotal [] = 0 := rfl

theorem lotsTotal_cons (L : Lot) (rest : List Lot) :
    lotsTotal (L :: rest) = L.Q + lotsTotal rest := by
  simp [lotsTotal]

theorem lotsTotal_take_succ_cons (L : Lot) (rest : List Lot) (n : Nat) :
    lotsTotal ((L :: rest).take (n + 1)) = L.Q + lotsTotal (rest.take n) := by
  simp [lotsTotal, List.take_succ_cons]

theorem consumedCost_cons (p : Nat × ℚ) (l : List (Nat × ℚ)) :
    consumedCost (p :: l) = (p.1 : ℚ) * p.2 + consumedCost l := by
  simp [consumedCost]

theorem consumedRealized_cons (pos : Int) (P : ℚ) (p : Nat × ℚ) (l : List (Nat × ℚ)) :
    consumedRealized pos P (p :: l) = (pos : ℚ) * p.1 * (P - p.2) +
      consumedRealized pos P l := by
  simp [consumedRealized]

theorem closeLoop_stop (oid : Nat) (pos : Int) (cps : ℚ) (fuel : Nat) (need : Int)
    (orders : List (Nat × OrderRec)) (queue : List Lot) (cost realized : ℚ)
    (oq qty : Int) (h : need ≤ 0) :
    Trade.closeLoop oid pos cps fuel need orders queue cost realized oq qty =
      .ok ⟨orders, queue, cost, realized, oq, qty⟩ := by
  unfold Trade.closeLoop
  rw [if_pos h]

theorem closeLoop_succ_none (oid : Nat) (pos : Int) (cps : ℚ) (fuel : Nat) (need : Int)
    (orders : List (Nat × OrderRec)) (queue : List Lot) (cost realized : ℚ)
    (oq qty : Int) (h : ¬ need ≤ 0) (ho : olookup oid orders = none) :
    Trade.closeLoop oid pos cps (fuel + 1) need orders queue cost realized oq qty =
      .error .overFilling := by
  conv_lhs => unfold Trade.closeLoop
  rw [if_neg h, ho]

theorem closeLoop_succ_nilq (oid : Nat) (pos : Int) (cps : ℚ) (fuel : Nat) (need : Int)
    (orders : List (Nat × OrderRec)) (cost realized : ℚ)
    (oq qty : Int) (ord : OrderRec) (h : ¬ need ≤ 0)
    (ho : olookup oid orders = some ord) :
    Trade.closeLoop oid pos cps (fuel + 1) need orders [] cost realized oq qty =
      .error .overFilling := by
  conv_lhs => unfold Trade.closeLoop
  rw [if_neg h, ho]

theorem closeLoop_succ_cons (oid : Nat) (pos : Int) (cps : ℚ) (fuel : Nat) (need : Int)
    (orders : List (Nat × OrderRec)) (L : Lot) (rest : List Lot) (cost realized : ℚ)
    (oq qty : Int) (ord : OrderRec) (h : ¬ need ≤ 0)
    (ho : olookup oid orders = some ord) :
    Trade.closeLoop oid pos cps (fuel + 1) need orders (L :: rest) cost realized oq qty =
      Trade.closeLoop oid pos cps fuel (need - min (L.Q : Int) need)
        (if ord.Q - min (L.Q : Int) need ≠ 0
          then oset oid ⟨ord.Q - min (L.Q : Int) need, ord.D⟩ orders
          else oremove oid orders)
        (if (L.Q : Int) - min (L.Q : Int) need ≠ 0
          then (⟨((L.Q : Int) - min (L.Q : Int) need).toNat, L.C⟩ : Lot) :: rest
          else rest)
        (cost - min (L.Q : Int) need * L.C)
        (realized + pos * min (L.Q : Int) need * (cps - L.C))
        (oq + min (L.Q : Int) need) (qty - min (L.Q : Int) need) := by
  conv_lhs => unfold Trade.closeLoop
  rw [if_neg h, ho]

theorem fifoConsume_cons (need : Nat) (L : Lot) (rest : List Lot) (h : need ≠ 0) :
    fifoConsume need (L :: rest) =
      if L.Q - min L.Q need ≠ 0
        then ([(min L.Q need, L.C)], (⟨L.Q - min L.Q need, L.C⟩ : Lot) :: rest)
        else ((min L.Q need, L.C) :: (fifoConsume (need - min L.Q need) rest).1,
          (fifoConsume (need - min L.Q need) rest).2) := by
  conv_lhs => unfold fifoConsume
  rw [if_neg h]

theorem fifoConsume_zero (l : List Lot) : fifoConsume 0 l = ([], l) := by
  cases l with
  | nil => rfl
  | cons L rest =>
    unfold fifoConsume
    rw [if_pos rfl]

theorem closeLoop_ok (oid : Nat) (pos : Int) (cps : ℚ) :
    ∀ (fuel need : Nat) (orders : List (Nat × OrderRec)) (queue : List Lot)
      (cost realized : ℚ) (oq qty : Int) (ord : OrderRec),
      olookup oid orders = some ord →
      (need : Int) ≤ ord.Q →
      need ≤ lotsTotal queue →
      need + queue.length ≤ fuel →
      1 ≤ need →
      ∃ orders',
        Trade.closeLoop oid pos cps fuel (need : Int) orders queue cost realized oq qty =
          .ok ⟨orders', (fifoConsume need queue).2,
            cost - consumedCost (fifoConsume need queue).1,
            realized + consumedRealized pos cps (fifoConsume need queue).1,
            oq + need, qty - need⟩ ∧
        olookup oid orders' = (if ord.Q = (need : Int) then none
          else some ⟨ord.Q - need, ord.D⟩) := by
  intro fuel
  induction fuel with
  | zero =>
    intro need orders queue cost realized oq qty ord _ _ _ h4 h5
    omega
  | succ fuel ih =>
    intro need orders queue cost realized oq qty ord ho hrem hsh hfuel hneed
    have hneed' : ¬ (need : Int) ≤ 0 := by
      omega
    cases queue with
    | nil =>
      rw [lotsTotal_nil] at hsh
      omega
    | cons L rest =>
      rw [closeLoop_succ_cons oid pos cps fuel (need : Int) orders L rest cost realized
        oq qty ord hneed' ho]
      have hmin : min ((L.Q : Nat) : Int) ((need : Nat) : Int) = ((min L.Q need : Nat) : Int) := by
        omega
      rw [hmin]
      rw [lotsTotal_cons] at hsh
      by_cases hcase : need ≤ L.Q
      · -- the head lot covers the whole remaining fill: one iteration then stop
        have hminr : min L.Q need = need := min_eq_right hcase
        rw [hminr]
        have hzero : (need : Int) - (need : Int) = 0 := by ring
        rw [hzero, closeLoop_stop _ _ _ _ _ _ _ _ _ _ _ (le_refl 0)]
        rw [fifoConsume_cons need L rest (by omega), hminr]
        have htn : ((L.Q : Int) - (need : Int)).toNat = L.Q - need := by
          omega
        by_cases hb : ord.Q - (need : Int) ≠ 0
        · rw [if_pos hb]
          refine ⟨oset oid ⟨ord.Q - (need : Int), ord.D⟩ orders, ?_,
            by rw [olookup_oset_self, if_neg (by omega)]⟩
          by_cases hl : L.Q - need ≠ 0
          · have hl' : (L.Q : Int) - (need : Int) ≠ 0 := by omega
            rw [if_pos hl, if_pos hl', htn]
            dsimp only
            rw [consumedCost_cons, consumedRealized_cons]
            simp only [consumedCost, consumedRealized, List.map_nil, List.sum_nil, add_zero]
            push_cast
            ring_nf
          · have hl' : ¬ ((L.Q : Int) - (need : Int) ≠ 0) := by omega
            have hnz : need - need = 0 := by omega
            rw [if_neg hl, if_neg hl', hnz, fifoConsume_zero]
            dsimp only
            rw [consumedCost_cons, consumedRealized_cons]
            simp only [consumedCost, consumedRealized, List.map_nil, List.sum_nil, add_zero]
            push_cast
            ring_nf
        · rw [if_neg hb]
          refine ⟨oremove oid orders, ?_,
            by rw [olookup_oremove_self, if_pos (by omega)]⟩
          by_cases hl : L.Q - need ≠ 0
          · have hl' : (L.Q : Int) - (need : Int) ≠ 0 := by omega
            rw [if_pos hl, if_pos hl', htn]
            dsimp only
            rw [consumedCost_cons, consumedRealized_cons]
            simp only [consumedCost, consumedRealized, List.map_nil, List.sum_nil, add_zero]
            push_cast
            ring_nf
          · have hl' : ¬ ((L.Q : Int) - (need : Int) ≠ 0) := by omega
            have hnz : need - need = 0 := by omega
            rw [if_neg hl, if_neg hl', hnz, fifoConsume_zero]
            dsimp only
            rw [consumedCost_cons, consumedRealized_cons]
            simp only [consumedCost, consumedRealized, List.map_nil, List.sum_nil, add_zero]
            push_cast
            ring_nf
      · -- the head lot is smaller: consume it fully and recurse
        have hlt : L.Q < need := by omega
        have hminl : min L.Q need = L.Q := min_eq_left (by omega)
        rw [hminl]
        have hqz : ¬ ((L.Q : Int) - (L.Q : Int) ≠ 0) := by omega
        rw [if_neg hqz]
        have hbq : ord.Q - (L.Q : Int) ≠ 0 := by omega
        rw [if_pos hbq]
        have hsub : (need : Int) - (L.Q : Int) = ((need - L.Q : Nat) : Int) := by
          omega
        rw [hsub]
        obtain ⟨orders'', hrun, hlook⟩ := ih (need - L.Q)
          (oset oid ⟨ord.Q - (L.Q : Int), ord.D⟩ orders) rest
          (cost - (L.Q : Int) * L.C) (realized + pos * (L.Q : Int) * (cps - L.C))
          (oq + (L.Q : Int)) (qty - (L.Q : Int)) ⟨ord.Q - (L.Q : Int), ord.D⟩
          (olookup_oset_self _ _ _)
          (by show ((need - L.Q : Nat) : Int) ≤ ord.Q - (L.Q : Int); omega)
          (by show need - L.Q ≤ lotsTotal rest; omega)
          (by show need - L.Q + rest.length ≤ fuel
              simp only [List.length_cons] at hfuel
              omega)
          (by show 1 ≤ need - L.Q; omega)
        dsimp only at hlook
        rw [hrun]
        rw [fifoConsume_cons need L rest (by omega), hminl]
        rw [if_neg (by omega)]
        refine ⟨orders'', ?_, ?_⟩
        · dsimp only
          rw [consumedCost_cons, consumedRealized_cons, ← hsub]
          push_cast
          ring_nf
        · rw [hlook]
          by_cases hc : ord.Q = (need : Int)
          · rw [if_pos (by omega), if_pos hc]
          · rw [if_neg (by omega), if_neg hc]
            simp only [Option.some.injEq, OrderRec.mk.injEq]
            exact ⟨by omega, trivial⟩

/-- C1: a closing fill (direction ≠ position) for a pending order with
enough remaining quantity, against a share queue holding at least the
filled quantity, pops FIFO lots consuming `min(lot.Q, remaining)` each;
afterwards cost decreased by `Σ Qc·lot.C`, realized increased by
`Σ position·Qc·(P − lot.C)` with `P = c − position·m/q`, quantity
decreased by `q`, open_quantity increased by `q`, and the order's pending
quantity decreased by `q` (removed at 0). -/
theorem trade_on_fill_closing_fifo (tr : Trade) (oid : Nat) (q : Nat) (d : Int)
    (c m : ℚ) (ord : OrderRec) (hq : 1 ≤ q) (hd : d ≠ tr.position)
    (ho : olookup oid tr.orders = some ord) (hrem : (q : Int) ≤ ord.Q)
    (hsh : q ≤ lotsTotal tr.share_queue) :
    ∃ tr', Trade.on_fill tr oid q d c m = .ok tr' ∧
      tr'.cost = tr.cost - consumedCost (fifoConsume q tr.share_queue).1 ∧
      tr'.realized = tr.realized + consumedRealized tr.position
        (c - tr.position * m / q) (fifoConsume q tr.share_queue).1 ∧
      tr'.quantity = tr.quantity - q ∧
      tr'.open_quantity = tr.open_quantity + q ∧
      tr'.share_queue = (fifoConsume q tr.share_queue).2 ∧
      olookup oid tr'.orders = (if ord.Q = (q : Int) then none
        else some ⟨ord.Q - q, ord.D⟩) := by
  obtain ⟨orders', hrun, hlook⟩ := closeLoop_ok oid tr.position
    (c - tr.position * m / q) (q + tr.share_queue.length) q tr.orders tr.share_queue
    tr.cost tr.realized tr.open_quantity tr.quantity ord ho hrem hsh (le_refl _) hq
  refine ⟨{ tr with
      orders := orders'
      share_queue := (fifoConsume q tr.share_queue).2
      cost := tr.cost - consumedCost (fifoConsume q tr.share_queue).1
      realized := tr.realized + consumedRealized tr.position
        (c - tr.position * m / q) (fifoConsume q tr.share_queue).1
      open_quantity := tr.open_quantity + q
      quantity := tr.quantity - q }, ?_, rfl, rfl, rfl, rfl, rfl, hlook⟩
  unfold Trade.on_fill
  rw [if_neg hd]
  dsimp only
  rw [hrun]

/-- A concrete trade with a pending closing order and two FIFO lots. -/
def trC1 : Trade :=
  { t := 3, position := 1, open_quantity := -5, quantity := 7, realized := 0,
    cost := 74, max_cost := 74, max_profit := 1, orders := [(7, ⟨5, -1⟩)],
    share_queue := [⟨3, 10⟩, ⟨4, 11⟩], tickClose := 12 }

/-- C1 witness. -/
theorem trade_on_fill_closing_fifo_witness :
    (1 ≤ 5 ∧ (-1 : Int) ≠ trC1.position ∧
      olookup 7 trC1.orders = some ⟨5, -1⟩ ∧
      ((5 : Nat) : Int) ≤ (⟨5, -1⟩ : OrderRec).Q ∧
      5 ≤ lotsTotal trC1.share_queue) ∧
    (∃ tr', Trade.on_fill trC1 7 5 (-1) 12 1 = .ok tr' ∧
      tr'.cost = trC1.cost - consumedCost (fifoConsume 5 trC1.share_queue).1 ∧
      tr'.realized = trC1.realized + consumedRealized trC1.position
        (12 - trC1.position * 1 / 5) (fifoConsume 5 trC1.share_queue).1 ∧
      tr'.quantity = trC1.quantity - 5 ∧
      tr'.open_quantity = trC1.open_quantity + 5 ∧
      tr'.share_queue = (fifoConsume 5 trC1.share_queue).2 ∧
      olookup 7 tr'.orders = (if (⟨5, -1⟩ : OrderRec).Q = ((5 : Nat) : Int) then none
        else some ⟨(⟨5, -1⟩ : OrderRec).Q - 5, (⟨5, -1⟩ : OrderRec).D⟩)) :=
  ⟨⟨by decide, by decide, by decide, by decide, by decide⟩,
   trade_on_fill_closing_fifo trC1 7 5 (-1) 12 1 ⟨5, -1⟩ (by decide) (by decide)
     (by decide) (by decide) (by decide)⟩

/-! ### Claim C5 — when `on_fill` raises `OverFilling` -/

theorem openLoop_stop (oid : Nat) (fuel : Nat) (need : Int)
    (orders : List (Nat × OrderRec)) (oq qty lq : Int) (h : need ≤ 0) :
    Trade.openLoop oid fuel need orders oq qty lq = .ok ⟨orders, oq, qty, lq⟩ := by
  conv_lhs => unfold Trade.openLoop
  rw [if_pos h]

theorem openLoop_succ_none (oid : Nat) (fuel : Nat) (need : Int)
    (orders : List (Nat × OrderRec)) (oq qty lq : Int) (h : ¬ need ≤ 0)
    (ho : olookup oid orders = none) :
    Trade.openLoop oid (fuel + 1) need orders oq qty lq = .error .overFilling := by
  conv_lhs => unfold Trade.openLoop
  rw [if_neg h, ho]

theorem openLoop_succ_some (oid : Nat) (fuel : Nat) (need : Int)
    (orders : List (Nat × OrderRec)) (oq qty lq : Int) (ord : OrderRec)
    (h : ¬ need ≤ 0) (ho : olookup oid orders = some ord) :
    Trade.openLoop oid (fuel + 1) need orders oq qty lq =
      Trade.openLoop oid fuel (need - min ord.Q need)
        (if ord.Q - min ord.Q need ≠ 0
          then oset oid ⟨ord.Q - min ord.Q need, ord.D⟩ orders
          else oremove oid orders)
        (oq - min ord.Q need) (qty + min ord.Q need) (min ord.Q need) := by
  conv_lhs => unfold Trade.openLoop
  rw [if_neg h, ho]

theorem openLoop_err_none (oid : Nat) (q : Nat) (orders : List (Nat × OrderRec))
    (oq qty lq : Int) (hq : 1 ≤ q) (ho : olookup oid orders = none) :
    Trade.openLoop oid q (q : Int) orders oq qty lq = .error .overFilling := by
  cases q with
  | zero => omega
  | succ p => exact openLoop_succ_none oid p _ orders oq qty lq (by omega) ho

theorem openLoop_ok_of_le (oid : Nat) (q : Nat) (orders : List (Nat × OrderRec))
    (oq qty lq : Int) (ord : OrderRec) (hq : 1 ≤ q)
    (ho : olookup oid orders = some ord) (hle : (q : Int) ≤ ord.Q) :
    Trade.openLoop oid q (q : Int) orders oq qty lq =
      .ok ⟨if ord.Q - (q : Int) ≠ 0
          then oset oid ⟨ord.Q - (q : Int), ord.D⟩ orders
          else oremove oid orders,
        oq - (q : Int), qty + (q : Int), (q : Int)⟩ := by
  cases q with
  | zero => omega
  | succ p =>
    rw [openLoop_succ_some oid p _ orders oq qty lq ord (by omega) ho]
    rw [min_eq_right hle]
    rw [show ((p + 1 : Nat) : Int) - ((p + 1 : Nat) : Int) = 0 from by ring]
    exact openLoop_stop oid p 0 _ _ _ _ (le_refl 0)

theorem openLoop_err_of_lt (oid : Nat) (q : Nat) (orders : List (Nat × OrderRec))
    (oq qty lq : Int) (ord : OrderRec) (hq : 1 ≤ q)
    (ho : olookup oid orders = some ord) (hQ1 : 1 ≤ ord.Q)
    (hlt : ord.Q < (q : Int)) :
    Trade.openLoop oid q (q : Int) orders oq qty lq = .error .overFilling := by
  cases q with
  | zero => omega
  | succ p =>
    rw [openLoop_succ_some oid p _ orders oq qty lq ord (by omega) ho]
    rw [min_eq_left (le_of_lt hlt)]
    rw [if_neg (by omega)]
    cases p with
    | zero => omega
    | succ p' =>
      exact openLoop_succ_none oid p' _ _ _ _ _ (by omega) (olookup_oremove_self _ _)

/-- The closing-loop failure condition: either the queue holds fewer
shares than the fill, or some nonempty initial run of lots sums exactly to
the order's remaining quantity before the fill is satisfied. -/
def closeFail (R : Int) (need : Nat) (queue : List Lot) : Prop :=
  lotsTotal queue < need ∨
    ∃ n, 1 ≤ n ∧ n ≤ queue.length ∧ (lotsTotal (queue.take n) : Int) = R ∧
      lotsTotal (queue.take n) < need

theorem closeFail_shift (L : Lot) (rest : List Lot) (R : Int) (need : Nat)
    (hlt : L.Q < need) (hne : R ≠ (L.Q : Int)) :
    closeFail (R - L.Q) (need - L.Q) rest ↔ closeFail R need (L :: rest) := by
  unfold closeFail
  constructor
  · rintro (h | ⟨n, hn1, hn2, hR, hlt'⟩)
    · left
      rw [lotsTotal_cons]
      omega
    · right
      refine ⟨n + 1, by omega, by simp only [List.length_cons]; omega, ?_, ?_⟩
      · rw [lotsTotal_take_succ_cons]
        push_cast at hR ⊢
        omega
      · rw [lotsTotal_take_succ_cons]
        omega
  · rintro (h | ⟨n, hn1, hn2, hR, hlt'⟩)
    · left
      rw [lotsTotal_cons] at h
      omega
    · cases n with
      | zero => omega
      | succ k =>
        rw [lotsTotal_take_succ_cons] at hR hlt'
        cases k with
        | zero =>
          rw [show rest.take 0 = [] from rfl, lotsTotal_nil] at hR
          omega
        | succ k' =>
          right
          refine ⟨k' + 1, by omega, by simp only [List.length_cons] at hn2; omega, ?_,
            by omega⟩
          push_cast at hR ⊢
          omega

theorem closeLoop_cases (oid : Nat) (pos : Int) (cps : ℚ) :
    ∀ (fuel need : Nat) (orders : List (Nat × OrderRec)) (queue : List Lot)
      (cost realized : ℚ) (oq qty : Int),
      1 ≤ need → need + queue.length ≤ fuel →
      ((Trade.closeLoop oid pos cps fuel (need : Int) orders queue cost realized oq qty =
          .error .overFilling) ↔
        (olookup oid orders = none ∨ ∃ ord, olookup oid orders = some ord ∧
          closeFail ord.Q need queue)) ∧
      ((∃ out, Trade.closeLoop oid pos cps fuel (need : Int) orders queue cost realized
          oq qty = .ok out) ∨
        Trade.closeLoop oid pos cps fuel (need : Int) orders queue cost realized oq qty =
          .error .overFilling) := by
  intro fuel
  induction fuel with
  | zero =>
    intro need orders queue cost realized oq qty h1 h2
    omega
  | succ fuel ih =>
    intro need orders queue cost realized oq qty h1 h2
    have hneed' : ¬ (need : Int) ≤ 0 := by omega
    cases ho : olookup oid orders with
    | none =>
      rw [closeLoop_succ_none oid pos cps fuel (need : Int) orders queue cost realized
        oq qty hneed' ho]
      exact ⟨⟨fun _ => Or.inl rfl, fun _ => rfl⟩, Or.inr rfl⟩
    | some ord =>
      cases queue with
      | nil =>
        rw [closeLoop_succ_nilq oid pos cps fuel (need : Int) orders cost realized
          oq qty ord hneed' ho]
        refine ⟨⟨fun _ => Or.inr ⟨ord, rfl, Or.inl (by rw [lotsTotal_nil]; omega)⟩,
          fun _ => rfl⟩, Or.inr rfl⟩
      | cons L rest =>
        rw [closeLoop_succ_cons oid pos cps fuel (need : Int) orders L rest cost realized
          oq qty ord hneed' ho]
        have hmin : min ((L.Q : Nat) : Int) ((need : Nat) : Int) =
            ((min L.Q need : Nat) : Int) := by omega
        rw [hmin]
        by_cases hcase : need ≤ L.Q
        · -- head lot covers the fill: the loop terminates normally
          rw [min_eq_right hcase]
          rw [show ((need : Nat) : Int) - ((need : Nat) : Int) = 0 from by ring]
          rw [closeLoop_stop oid pos cps fuel 0 _ _ _ _ _ _ (le_refl 0)]
          constructor
          · constructor
            · intro h
              simp at h
            · intro h
              exfalso
              rcases h with h | ⟨ord', ho', hfail⟩
              · simp at h
              · injection ho' with he
                subst he
                rcases hfail with h | ⟨n, hn1, hn2, hR, hlt'⟩
                · rw [lotsTotal_cons] at h
                  omega
                · cases n with
                  | zero => omega
                  | succ k =>
                    rw [lotsTotal_take_succ_cons] at hlt'
                    omega
          · exact Or.inl ⟨_, rfl⟩
        · -- head lot smaller than the fill: consume it and recurse
          have hlt : L.Q < need := by omega
          rw [min_eq_left (by omega)]
          rw [if_neg (show ¬ ((L.Q : Int) - (L.Q : Int) ≠ 0) from by omega)]
          have hsub : ((need : Nat) : Int) - ((L.Q : Nat) : Int) =
              ((need - L.Q : Nat) : Int) := by omega
          rw [hsub]
          by_cases hb : ord.Q - (L.Q : Int) ≠ 0
          · rw [if_pos hb]
            obtain ⟨ihiff, ihtot⟩ := ih (need - L.Q)
              (oset oid ⟨ord.Q - (L.Q : Int), ord.D⟩ orders) rest
              (cost - (L.Q : Int) * L.C) (realized + pos * (L.Q : Int) * (cps - L.C))
              (oq + (L.Q : Int)) (qty - (L.Q : Int))
              (by omega) (by simp only [List.length_cons] at h2; omega)
            refine ⟨?_, ?_⟩
            · rw [ihiff]
              constructor
              · rintro (h | ⟨ord', ho', hfail⟩)
                · rw [olookup_oset_self] at h
                  simp at h
                · rw [olookup_oset_self] at ho'
                  injection ho' with he
                  subst he
                  dsimp only at hfail
                  exact Or.inr ⟨ord, rfl,
                    (closeFail_shift L rest ord.Q need hlt (by omega)).mp hfail⟩
              · rintro (h | ⟨ord', ho', hfail⟩)
                · simp at h
                · injection ho' with he
                  subst he
                  exact Or.inr ⟨⟨ord.Q - (L.Q : Int), ord.D⟩, olookup_oset_self _ _ _,
                    (closeFail_shift L rest ord.Q need hlt (by omega)).mpr hfail⟩
            · exact ihtot
          · rw [if_neg hb]
            have hbz : ord.Q = (L.Q : Int) := by omega
            obtain ⟨ihiff, _⟩ := ih (need - L.Q) (oremove oid orders) rest
              (cost - (L.Q : Int) * L.C) (realized + pos * (L.Q : Int) * (cps - L.C))
              (oq + (L.Q : Int)) (qty - (L.Q : Int))
              (by omega) (by simp only [List.length_cons] at h2; omega)
            have herr := ihiff.mpr (Or.inl (olookup_oremove_self _ _))
            rw [herr]
            refine ⟨⟨fun _ => ?_, fun _ => rfl⟩, Or.inr rfl⟩
            refine Or.inr ⟨ord, rfl, Or.inr ⟨1, le_refl 1,
              by simp only [List.length_cons]; omega, ?_, ?_⟩⟩
            · rw [show (1 : Nat) = 0 + 1 from rfl, lotsTotal_take_succ_cons,
                show rest.take 0 = [] from rfl, lotsTotal_nil]
              omega
            · rw [show (1 : Nat) = 0 + 1 from rfl, lotsTotal_take_succ_cons,
                show rest.take 0 = [] from rfl, lotsTotal_nil]
              omega

/-- The exact condition under which `Trade.on_fill` raises `OverFilling`
(for fills of positive quantity against orders with positive remaining
quantity): no matching order; an opening fill larger than the order's
remaining quantity; or a closing fill that either exceeds the held shares
or exceeds the order's remaining quantity R while some nonempty initial
run of FIFO lots sums exactly to R. -/
def overfillCond (tr : Trade) (oid : Nat) (q : Nat) (d : Int) : Bool :=
  match olookup oid tr.orders with
  | none => true
  | some ord =>
    if d = tr.position then decide (ord.Q < (q : Int))
    else
      decide (lotsTotal tr.share_queue < q) ||
        (List.range (tr.share_queue.length + 1)).any (fun n =>
          decide (1 ≤ n) &&
          decide ((lotsTotal (tr.share_queue.take n) : Int) = ord.Q) &&
          decide (lotsTotal (tr.share_queue.take n) < q))

theorem overfillCond_iff (tr : Trade) (oid : Nat) (q : Nat) (d : Int) :
    overfillCond tr oid q d = true ↔
      (olookup oid tr.orders = none ∨ ∃ ord, olookup oid tr.orders = some ord ∧
        ((d = tr.position ∧ ord.Q < (q : Int)) ∨
         (d ≠ tr.position ∧ closeFail ord.Q q tr.share_queue))) := by
  unfold overfillCond
  cases ho : olookup oid tr.orders with
  | none => simp
  | some ord =>
    by_cases hd : d = tr.position
    · simp only [if_pos hd, decide_eq_true_eq]
      constructor
      · intro h
        exact Or.inr ⟨ord, rfl, Or.inl ⟨hd, h⟩⟩
      · rintro (h | ⟨ord', ho', (⟨_, h⟩ | ⟨hnd, _⟩)⟩)
        · simp at h
        · injection ho' with he
          subst he
          exact h
        · exact absurd hd hnd
    · simp only [if_neg hd, Bool.or_eq_true, decide_eq_true_eq, List.any_eq_true,
        List.mem_range, Bool.and_eq_true]
      constructor
      · rintro (h | ⟨n, hn, ⟨h1, h2⟩, h3⟩)
        · exact Or.inr ⟨ord, rfl, Or.inr ⟨hd, Or.inl h⟩⟩
        · exact Or.inr ⟨ord, rfl, Or.inr ⟨hd, Or.inr ⟨n, h1, by omega, h2, h3⟩⟩⟩
      · rintro (h | ⟨ord', ho', (⟨hpd, _⟩ | ⟨_, (h | ⟨n, hn1, hn2, hR, hlt⟩)⟩)⟩)
        · simp at h
        · exact absurd hpd hd
        · exact Or.inl h
        · injection ho' with he
          subst he
          exact Or.inr ⟨n, by omega, ⟨hn1, hR⟩, hlt⟩

theorem on_fill_err_char (tr : Trade) (oid : Nat) (q : Nat) (d : Int)
    (c m : ℚ) (hq : 1 ≤ q)
    (hpos : ∀ p ∈ tr.orders, p.1 = oid → 1 ≤ p.2.Q) :
    (Trade.on_fill tr oid q d c m = .error .overFilling ↔
      (olookup oid tr.orders = none ∨ ∃ ord, olookup oid tr.orders = some ord ∧
        ((d = tr.position ∧ ord.Q < (q : Int)) ∨
         (d ≠ tr.position ∧ closeFail ord.Q q tr.share_queue)))) ∧
    (¬ (olookup oid tr.orders = none ∨ ∃ ord, olookup oid tr.orders = some ord ∧
        ((d = tr.position ∧ ord.Q < (q : Int)) ∨
         (d ≠ tr.position ∧ closeFail ord.Q q tr.share_queue))) →
      ∃ tr', Trade.on_fill tr oid q d c m = .ok tr') := by
  by_cases hd : d = tr.position
  · unfold Trade.on_fill
    rw [if_pos hd]
    dsimp only
    cases ho : olookup oid tr.orders with
    | none =>
      rw [openLoop_err_none oid q tr.orders tr.open_quantity tr.quantity 0 hq ho]
      exact ⟨⟨fun _ => Or.inl rfl, fun _ => rfl⟩, fun hnc => absurd (Or.inl rfl) hnc⟩
    | some ord =>
      have hQ1 : 1 ≤ ord.Q := hpos (oid, ord) (olookup_mem _ _ _ ho) rfl
      by_cases hle : (q : Int) ≤ ord.Q
      · rw [openLoop_ok_of_le oid q tr.orders tr.open_quantity tr.quantity 0 ord hq ho hle]
        have hnc : ¬ ((some ord : Option OrderRec) = none ∨
            ∃ ord', (some ord : Option OrderRec) = some ord' ∧
              ((d = tr.position ∧ ord'.Q < (q : Int)) ∨
               (d ≠ tr.position ∧ closeFail ord'.Q q tr.share_queue))) := by
          rintro (h | ⟨ord', ho', (⟨_, hlt⟩ | ⟨hnd, _⟩)⟩)
          · simp at h
          · injection ho' with he
            subst he
            omega
          · exact hnd hd
        exact ⟨iff_of_false (by simp) hnc, fun _ => ⟨_, rfl⟩⟩
      · rw [openLoop_err_of_lt oid q tr.orders tr.open_quantity tr.quantity 0 ord hq ho
          hQ1 (by omega)]
        exact ⟨⟨fun _ => Or.inr ⟨ord, rfl, Or.inl ⟨hd, by omega⟩⟩, fun _ => rfl⟩,
          fun hnc => absurd (Or.inr ⟨ord, rfl, Or.inl ⟨hd, by omega⟩⟩) hnc⟩
  · unfold Trade.on_fill
    rw [if_neg hd]
    dsimp only
    obtain ⟨cliff, cltot⟩ := closeLoop_cases oid tr.position (c - tr.position * m / q)
      (q + tr.share_queue.length) q tr.orders tr.share_queue tr.cost tr.realized
      tr.open_quantity tr.quantity hq (le_refl _)
    have htrans : (olookup oid tr.orders = none ∨ ∃ ord, olookup oid tr.orders = some ord ∧
        ((d = tr.position ∧ ord.Q < (q : Int)) ∨
         (d ≠ tr.position ∧ closeFail ord.Q q tr.share_queue))) ↔
        (olookup oid tr.orders = none ∨ ∃ ord, olookup oid tr.orders = some ord ∧
          closeFail ord.Q q tr.share_queue) := by
      constructor
      · rintro (h | ⟨ord', ho', (⟨hpd, _⟩ | ⟨_, hcf⟩)⟩)
        · exact Or.inl h
        · exact absurd hpd hd
        · exact Or.inr ⟨ord', ho', hcf⟩
      · rintro (h | ⟨ord', ho', hcf⟩)
        · exact Or.inl h
        · exact Or.inr ⟨ord', ho', Or.inr ⟨hd, hcf⟩⟩
    rcases cltot with ⟨out, hok⟩ | herr
    · rw [hok]
      refine ⟨iff_of_false (by simp) ?_, fun _ => ⟨_, rfl⟩⟩
      intro hcp
      have := cliff.mpr (htrans.mp hcp)
      rw [hok] at this
      simp at this
    · rw [herr]
      exact ⟨⟨fun _ => htrans.mpr (cliff.mp herr), fun _ => rfl⟩,
        fun hnc => absurd (htrans.mpr (cliff.mp herr)) hnc⟩

/-- C5 (amended): with a positive fill quantity and positive stored order
quantities, `on_fill` raises `OverFilling` exactly when `overfillCond`
holds — no matching order, or an opening fill exceeding the order's
remaining quantity, or a closing fill exceeding the held shares, or a
closing fill exceeding the order's remaining R whose FIFO consumption
lands exactly on R at a lot boundary; on all other inputs it returns
normally. -/
theorem on_fill_overfilling_iff (tr : Trade) (oid : Nat) (q : Nat) (d : Int)
    (c m : ℚ) (hq : 1 ≤ q)
    (hpos : ∀ p ∈ tr.orders, p.1 = oid → 1 ≤ p.2.Q) :
    (Trade.on_fill tr oid q d c m = .error .overFilling ↔
      overfillCond tr oid q d = true) ∧
    (overfillCond tr oid q d = false →
      ∃ tr', Trade.on_fill tr oid q d c m = .ok tr') := by
  obtain ⟨hiff, hok⟩ := on_fill_err_char tr oid q d c m hq hpos
  constructor
  · rw [hiff, overfillCond_iff]
  · intro hfalse
    refine hok ?_
    rw [← overfillCond_iff]
    simp [hfalse]

def trCE5 : Trade :=
  { t := 1, position := 1, open_quantity := -10, quantity := 10, realized := 0,
    cost := 10, max_cost := 10, max_profit := 0, orders := [(0, ⟨4, -1⟩)],
    share_queue := [⟨10, 1⟩], tickClose := 2 }

/-- C5 counterexample: a closing fill whose quantity (10) strictly exceeds
the matching order's remaining quantity (4) nevertheless returns normally,
because the FIFO lot consumption never lands exactly on the order's
remaining at a lot boundary — refuting the claim that such fills raise
`OverFilling`. -/
theorem on_fill_overfill_order_cex :
    fillOk (Trade.on_fill trCE5 0 10 (-1) 2 0) = true ∧
    (-1 : Int) ≠ trCE5.position ∧
    olookup 0 trCE5.orders = some ⟨4, -1⟩ ∧
    (⟨4, -1⟩ : OrderRec).Q < ((10 : Nat) : Int) := by
  refine ⟨by decide, by decide, rfl, by decide⟩

def trW5 : Trade :=
  { t := 2, position := 1, open_quantity := -7, quantity := 7, realized := 0,
    cost := 7, max_cost := 7, max_profit := 0, orders := [(2, ⟨5, -1⟩)],
    share_queue := [⟨3, 1⟩, ⟨4, 1⟩], tickClose := 2 }

/-- C5 witness. -/
theorem on_fill_overfilling_iff_witness :
    ((1 : Nat) ≤ 3 ∧ ∀ p ∈ trW5.orders, p.1 = 2 → 1 ≤ p.2.Q) ∧
    ((Trade.on_fill trW5 2 3 (-1) 2 0 = .error .overFilling ↔
        overfillCond trW5 2 3 (-1) = true) ∧
      (overfillCond trW5 2 3 (-1) = false →
        ∃ tr', Trade.on_fill trW5 2 3 (-1) 2 0 = .ok tr')) :=
  ⟨⟨by decide, by decide⟩,
    on_fill_overfilling_iff trW5 2 3 (-1) 2 0 (by decide) (by decide)⟩

end Pcm
